import Mathlib

/-!
# deMedallo: chain synchronisation and transaction relay (`eth/sync.go`)

A shallow embedding of `ProtocolManager.synchronise` and of the transaction
relay loop `ProtocolManager.txsyncLoop` with its two closures `send` and
`pick`, followed by the properties proved about them.

Conventions of the embedding

* `*big.Int` values are `Int`; a possibly-nil `*big.Int` is `Option Int`.
* `uint32` flags accessed through `sync/atomic` are `Nat` fields.
* Collaborators that are not part of `eth/sync.go` (block chain, downloader,
  peers, logger) appear as data: their answers are fields or functions of the
  environment and every call made to them is recorded in an effect list.
* A Go map is an association list; the order in which `range` enumerates it is
  supplied from outside as an arbitrary rearrangement of the entries.
* `common.StorageSize` values are exact non-negative numbers (`Nat`).
-/

namespace Eth

/-! ## Data model -/

/-- Block and transaction hashes (`common.Hash`). -/
abbrev Hash := Nat

/-- Node identity, the key of the pending map (`discover.NodeID`). -/
abbrev NodeID := Nat

/-- Download strategy handed to the downloader (`downloader.SyncMode`). -/
inductive SyncMode where
  | FullSync
  | FastSync
  deriving DecidableEq, Repr

/-- Remote peer handle: `id` is the string identity given to the downloader,
`ID` the node identity returned by `p.ID()`, and `head`, `td` are the two
results of `p.Head()`. -/
structure peer where
  id : String
  ID : NodeID
  head : Hash
  td : Int
  deriving DecidableEq, Repr

/-- Block as far as `synchronise` looks at it: `Hash()` and `NumberU64()`. -/
structure Block where
  Hash : Hash
  NumberU64 : Nat
  deriving DecidableEq, Repr

/-- Local chain: `CurrentBlock()` and `GetTd(hash)`, which may answer nil. -/
structure BlockChain where
  CurrentBlock : Block
  GetTd : Hash → Option Int

/-- Calls that `synchronise` makes on its collaborators, in program order. -/
inductive Effect where
  | currentBlock
  | getTd (h : Hash)
  | fatalf (td : Option Int)
  | head (id : String)
  | downloaderSynchronise (id : String) (head : Hash) (td : Int) (mode : SyncMode)
  | infof
  deriving DecidableEq, Repr

/-- The downloader collaborator: `Synchronise(id, head, td, mode)` answers a
boolean and may have changed the local chain while it ran. -/
abbrev Downloader := BlockChain → String → Hash → Int → SyncMode → Bool × BlockChain

/-- The part of `ProtocolManager` that `synchronise` touches. -/
structure ProtocolManager where
  fastSync : Nat
  synced : Nat
  blockchain : BlockChain
  downloader : Downloader

/-- Result of one call: the manager afterwards, the collaborator calls made, and
whether the process was terminated by `glog.Fatalf`. -/
structure SyncResult where
  pm : ProtocolManager
  effects : List Effect
  exited : Bool

/-- `(*big.Int).Cmp`: -1, 0 or +1. -/
def Cmp (x y : Int) : Int :=
  if x < y then -1 else if x = y then 0 else 1

/-- `(*big.Int).Sign`: -1, 0 or +1. -/
def Sign (x : Int) : Int :=
  if x < 0 then -1 else if x = 0 then 0 else 1

/-! ## `synchronise` -/

/-- `ProtocolManager.synchronise`, `eth/sync.go` lines 164-200. -/
def synchronise (pm : ProtocolManager) (p : Option peer) : SyncResult :=
  match p with
  -- Short circuit if no peers are available
  | none => ⟨pm, [], false⟩
  | some peer =>
    let currentBlock := pm.blockchain.CurrentBlock
    let td := pm.blockchain.GetTd currentBlock.Hash
    let e0 := [Effect.currentBlock, Effect.getTd currentBlock.Hash]
    match td with
    | none => ⟨pm, e0 ++ [Effect.fatalf none], true⟩
    | some td =>
      if Sign td < 1 then ⟨pm, e0 ++ [Effect.fatalf (some td)], true⟩
      else
        let pHead := peer.head
        let pTd := peer.td
        let e1 := e0 ++ [Effect.head peer.id]
        if Cmp pTd td ≤ 0 then ⟨pm, e1, false⟩
        else
          let mode := if pm.fastSync = 1 then SyncMode.FastSync else SyncMode.FullSync
          let r := pm.downloader pm.blockchain peer.id pHead pTd mode
          let e2 := e1 ++ [Effect.downloaderSynchronise peer.id pHead pTd mode]
          let pm1 := { pm with blockchain := r.2 }
          if !r.1 then ⟨pm1, e2, false⟩
          else
            let pm2 := { pm1 with synced := 1 }
            if pm2.fastSync = 1 then
              if pm2.blockchain.CurrentBlock.NumberU64 > 0 then
                ⟨{ pm2 with fastSync := 0 }, e2 ++ [Effect.currentBlock, Effect.infof], false⟩
              else ⟨pm2, e2 ++ [Effect.currentBlock], false⟩
            else ⟨pm2, e2, false⟩

/-- Number of downloader invocations recorded in an effect list. -/
def downloaderCalls : List Effect → Nat
  | [] => 0
  | Effect.downloaderSynchronise _ _ _ _ :: es => downloaderCalls es + 1
  | _ :: es => downloaderCalls es

/-- Whether an effect list reports the fatal invalid-TD condition. -/
def reportsFatal : List Effect → Bool
  | [] => false
  | Effect.fatalf _ :: _ => true
  | _ :: es => reportsFatal es

/-- Whether an effect list reads the chain. -/
def readsChain : List Effect → Bool
  | [] => false
  | Effect.currentBlock :: _ => true
  | Effect.getTd _ :: _ => true
  | _ :: es => readsChain es

/-- One call of `synchronise` as seen from outside: the peer handed in and
the chain and downloader in place when the call is made. -/
structure SyncCall where
  target : Option peer
  blockchain : BlockChain
  downloader : Downloader

/-- Values of the `fastSync` flag along a sequence of `synchronise` calls: the
value before the first call and the value after each call; the sequence ends
early when a call terminates the process. -/
def fastSyncTrace (fastSync synced : Nat) : List SyncCall → List Nat
  | [] => [fastSync]
  | c :: cs =>
    let r := synchronise ⟨fastSync, synced, c.blockchain, c.downloader⟩ c.target
    if r.exited then [fastSync, r.pm.fastSync]
    else fastSync :: fastSyncTrace r.pm.fastSync r.pm.synced cs

/-- Number of positions at which consecutive values of a list differ. -/
def changes : List Nat → Nat
  | a :: b :: rest => (if a = b then 0 else 1) + changes (b :: rest)
  | _ => 0

/-! ## The transaction relay loop `txsyncLoop` -/

/-- Amount of peers desired to start syncing. -/
def minDesiredPeerCount : Nat := 5

/-- Target size for the packs of transactions sent by `txsyncLoop`. -/
def txsyncPackSize : Nat := 100 * 1024

/-- Transaction as far as the relay loop looks at it: its identity and its
serialized size `tx.Size()`. -/
structure Transaction where
  hash : Hash
  Size : Nat
  deriving DecidableEq, Repr

/-- The `txsync` record: target peer and the transactions still to send. -/
structure txsync where
  p : peer
  txs : List Transaction
  deriving DecidableEq, Repr

/-- The `pending` map, `map[discover.NodeID]*txsync`. -/
abbrev Pending := List (NodeID × txsync)

/-- Map read `pending[k]`. -/
def mapGet : Pending → NodeID → Option txsync
  | [], _ => none
  | e :: m, k => if e.1 = k then some e.2 else mapGet m k

/-- Builtin `delete(pending, k)`. -/
def mapDelete (m : Pending) (k : NodeID) : Pending :=
  m.filter (fun e => e.1 ≠ k)

/-- Map write `pending[k] = v`. -/
def mapSet (m : Pending) (k : NodeID) (v : txsync) : Pending :=
  mapDelete m k ++ [(k, v)]

/-- Write through the pointer held in the map under key `k`: the object that
entry points to is replaced by `v`, the map itself is not touched. -/
def mapMutate (m : Pending) (k : NodeID) (v : txsync) : Pending :=
  m.map (fun e => if e.1 = k then (e.1, v) else e)

/-- Builtin `copy(dst, src)`: the number of elements copied and the contents
of `dst` afterwards. -/
def copy (dst src : List Transaction) : Nat × List Transaction :=
  let n := min dst.length src.length
  (n, src.take n ++ dst.drop n)

/-- The fill loop of `send` (lines 75-78), started at the transactions not yet
looked at, with the pack and the size accumulated so far; returns the final
pack and size. -/
def fillPack : List Transaction → List Transaction → Nat → List Transaction × Nat
  | [], pack, size => (pack, size)
  | tx :: rest, pack, size =>
    if size < txsyncPackSize then fillPack rest (pack ++ [tx]) (size + tx.Size)
    else (pack, size)

/-- Contents of `pack.txs` after line 78, for a backlog `txs`. -/
def packTxs (txs : List Transaction) : List Transaction :=
  (fillPack txs [] 0).1

/-- Contents of `s.txs` after line 80, for a backlog `txs`:
`s.txs[:copy(s.txs, s.txs[len(pack.txs):])]`. -/
def remaining (txs : List Transaction) : List Transaction :=
  let c := copy txs (txs.drop (packTxs txs).length)
  c.2.take c.1

/-- Local variables of `txsyncLoop`, together with two observations of its
goroutines: `sent` lists the `SendTransactions` calls started so far, in
order, and `inflight` counts the started calls whose result the loop has not
yet received from `done`. The zero-valued `new(txsync)` that `pack` starts
as is `none`; `stopped` records that the loop has returned. -/
structure LoopState where
  pending : Pending
  sending : Bool
  pack : Option txsync
  inflight : Nat
  sent : List txsync
  stopped : Bool
  deriving DecidableEq, Repr

/-- State at loop entry (lines 62-67). -/
def LoopState.init : LoopState := ⟨[], false, none, 0, [], false⟩

/-- The closure `send` (lines 70-88), called with a pointer `s` to the object
that `pending` holds under key `k`. -/
def send (st : LoopState) (k : NodeID) (s : txsync) : LoopState :=
  -- Fill pack with transactions up to the target size.
  let pack : txsync := ⟨s.p, packTxs s.txs⟩
  -- Remove the transactions that will be sent.
  let s1 : txsync := ⟨s.p, remaining s.txs⟩
  let pending1 := mapMutate st.pending k s1
  let pending2 := if s1.txs.length = 0 then mapDelete pending1 s1.p.ID else pending1
  -- Send the pack in the background.
  { st with
    pending := pending2
    sending := true
    pack := some pack
    inflight := st.inflight + 1
    sent := st.sent ++ [pack] }

/-- How a call of `pick` ends: at line 93, inside the loop at line 98, or at
the final line 101. -/
inductive PickResult where
  | empty
  | found (e : NodeID × txsync)
  | fellThrough
  deriving DecidableEq, Repr

/-- The `range` loop of `pick` (lines 96-100) over the entries in the order
the iteration yields them, with the counter `n`. -/
def pickLoop : List (NodeID × txsync) → Int → Option (NodeID × txsync)
  | [], _ => none
  | e :: rest, n => if n - 1 = 0 then some e else pickLoop rest (n - 1)

/-- The closure `pick` (lines 91-102). `order` is the order in which `range`
enumerates `pending` and `r` is the value of `rand.Intn(len(pending))`. -/
def pick (pending : Pending) (order : List (NodeID × txsync)) (r : Nat) : PickResult :=
  if pending.length = 0 then PickResult.empty
  else
    match pickLoop order ((r : Int) + 1) with
    | some e => PickResult.found e
    | none => PickResult.fellThrough

/-- The value `pick` returns to its caller: nil unless an entry was found. -/
def PickResult.value : PickResult → Option txsync
  | PickResult.found e => some e.2
  | _ => none

/-- Events the `select` of the loop can take: a registration arrives on
`txsyncCh`, the result of the send in flight arrives on `done` (with the
iteration order and random number `pick` will meet), or `quitSync` fires. -/
inductive Event where
  | txsync (s : txsync)
  | done (err : Option String) (order : List (NodeID × txsync)) (r : Nat)
  | quit
  deriving DecidableEq, Repr

/-- Line 107: `pending[s.p.ID()] = s`. -/
def register (st : LoopState) (s : txsync) : LoopState :=
  { st with pending := mapSet st.pending s.p.ID s }

/-- Lines 106-110: the `txsyncCh` case. -/
def onTxsync (st : LoopState) (s : txsync) : LoopState :=
  let st1 := register st s
  if !st1.sending then send st1 s.p.ID s else st1

/-- Lines 112-117: the result of the send is taken from `done`, `sending` is
cleared and a failing peer is dropped. Dereferencing a nil `pack.p` is a
run-time fault, rendered as `none`. -/
def completeSend (st : LoopState) (err : Option String) : Option LoopState :=
  let st1 := { st with sending := false, inflight := st.inflight - 1 }
  match err with
  | none => some st1
  | some _ =>
    match st1.pack with
    | none => none
    | some pack => some { st1 with pending := mapDelete st1.pending pack.p.ID }

/-- Lines 119-121: schedule the next send. -/
def schedule (st : LoopState) (order : List (NodeID × txsync)) (r : Nat) : LoopState :=
  match pick st.pending order r with
  | PickResult.found e => send st e.1 e.2
  | _ => st

/-- The choices an event carries for `pick` are possible ones: `order` is a
rearrangement of the map entries and `r` is below their number whenever
`rand.Intn` is called at all. -/
def validChoice (m : Pending) (order : List (NodeID × txsync)) (r : Nat) : Bool :=
  decide (order.Perm m) && (m.length = 0 || r < m.length)

/-- One iteration of the loop (lines 104-125). `none` when the event cannot be
taken in this state (the loop has returned, no send result is outstanding, or
the choices do not fit the map) or when the iteration faults. -/
def step (st : LoopState) : Event → Option LoopState
  | Event.txsync s => if st.stopped then none else some (onTxsync st s)
  | Event.done err order r =>
    if st.stopped || st.inflight = 0 then none
    else
      match completeSend st err with
      | none => none
      | some st2 =>
        if validChoice st2.pending order r then some (schedule st2 order r) else none
  | Event.quit => if st.stopped then none else some { st with stopped := true }

/-- Run the loop over a sequence of events. -/
def run : LoopState → List Event → Option LoopState
  | st, [] => some st
  | st, e :: es =>
    match step st e with
    | none => none
    | some st1 => run st1 es

/-- States the loop can be in: those some event sequence leads to from entry. -/
def Reachable (st : LoopState) : Prop :=
  ∃ es, run LoopState.init es = some st

/-- Packs handed to `SendTransactions` for node `k` in a list of sends. -/
def sentTo (k : NodeID) (log : List txsync) : List (List Transaction) :=
  (log.filter (fun pk => pk.p.ID = k)).map (fun pk => pk.txs)

/-- Whether taking event `e` in state `st` leaves node `k` alone: the event is
not a registration for `k`, and it is not an error result for a pack that was
sent to `k`. -/
def quiet (k : NodeID) (st : LoopState) : Event → Bool
  | Event.txsync s => s.p.ID ≠ k
  | Event.done (some _) _ _ => st.pack.map (fun pk => pk.p.ID) ≠ some k
  | _ => true

/-- Whether node `k` is left alone along the events `es` taken from state `st`. -/
def undisturbed (k : NodeID) : LoopState → List Event → Bool
  | _, [] => true
  | st, e :: es =>
    quiet k st e &&
    (match step st e with
      | none => true
      | some st1 => undisturbed k st1 es)

/-- Transactions still queued for node `k`: those of its entry, none without
an entry. -/
def backlogOf (m : Pending) (k : NodeID) : List Transaction :=
  match mapGet m k with
  | some s => s.txs
  | none => []

/-- Shape of the loop state that every iteration keeps: the map has one entry
per key, each entry is stored under the node identity of its own peer, the
number of outstanding send results is 1 while `sending` is set and 0
otherwise, and a pack with a peer is in place while `sending` is set. -/
structure Inv (st : LoopState) : Prop where
  nodup : (st.pending.map Prod.fst).Nodup
  keyed : ∀ e ∈ st.pending, e.2.p.ID = e.1
  flight : st.inflight = if st.sending then 1 else 0
  packed : st.sending = true → st.pack ≠ none

/-- Sum of the serialized sizes of a list of transactions. -/
def totalSize (txs : List Transaction) : Nat :=
  (txs.map (fun tx => tx.Size)).sum

/-! ## `syncTransactions` -/

/-- The function `ProtocolManager.syncTransactions` (lines 46-55) for peer `p`, with
`pool` the answer of `pm.txpool.GetTransactions()` and `quit` telling whether
the `select` takes the `quitSync` case: the value written to `txsyncCh`, if
any. -/
def syncTransactions (p : peer) (pool : List Transaction) (quit : Bool) : Option txsync :=
  if pool.length = 0 then none
  else if quit then none
  else some ⟨p, pool⟩

/-- Every registration in a list of events carries at least one transaction. -/
def registersNonEmpty (es : List Event) : Prop :=
  ∀ s, Event.txsync s ∈ es → s.txs ≠ []

/-! ## The `syncer` loop -/

/-- Answers of the peer set collaborator: `pm.peers.Len()` and
`pm.peers.BestPeer()`. -/
structure PeerSet where
  Len : Nat
  BestPeer : Option peer

/-- The closure `sync` of `syncer` (line 135). -/
def sync (pm : ProtocolManager) (peers : PeerSet) : SyncResult :=
  synchronise pm peers.BestPeer

/-- Life of a `time.Timer` made by `time.AfterFunc`: waiting, expired (its
function has been started), or stopped before it expired. -/
inductive Timer where
  | armed
  | fired
  | stopped
  deriving DecidableEq, Repr

/-- Method `(*time.Timer).Stop`: true if the call stops the timer, false if the
timer has already expired or been stopped. -/
def Timer.Stop : Timer → Bool × Timer
  | Timer.armed => (true, Timer.stopped)
  | Timer.fired => (false, Timer.fired)
  | Timer.stopped => (false, Timer.stopped)

/-- What `syncer` does to its surroundings, in program order. `goSync` is the
statement `go sync()` of line 150, `timerSync` the call of `sync` made by the
timer itself when it expires. -/
inductive SyncerEffect where
  | fetcherStart
  | fetcherStop
  | downloaderTerminate
  | afterFunc (seconds : Nat)
  | timerStop (result : Bool)
  | goSync
  | timerSync
  deriving DecidableEq, Repr

/-- State of `syncer`: the current `batchTimer`, what has been done so far, and
whether the function has returned. -/
structure SyncerState where
  batchTimer : Timer
  effects : List SyncerEffect
  returned : Bool
  deriving DecidableEq, Repr

/-- What can happen to `syncer`: one of the three cases of its `select`, or the
expiry of the timer, which is no case of the `select` but starts `sync` in a
goroutine of its own. -/
inductive SyncerEvent where
  | noMorePeers
  | newPeer (peers : PeerSet)
  | timerC
  | timerExpires

/-- State on reaching the `select` for the first time (lines 131-137). -/
def SyncerState.init : SyncerState :=
  ⟨Timer.armed, [SyncerEffect.fetcherStart, SyncerEffect.afterFunc 10], false⟩

/-- One pass through the `select` of `syncer` (lines 136-160), up to the next
`select`. `none` when the event cannot be taken: the function has returned,
the timer is not waiting when it is said to expire, or the case is
`<-batchTimer.C`, whose channel is nil for a timer made by `time.AfterFunc`. -/
def syncerStep (st : SyncerState) : SyncerEvent → Option SyncerState
  | SyncerEvent.noMorePeers =>
    if st.returned then none
    else
      let r := st.batchTimer.Stop
      some ⟨r.2, st.effects ++ [SyncerEffect.timerStop r.1,
        SyncerEffect.downloaderTerminate, SyncerEffect.fetcherStop], true⟩
  | SyncerEvent.newPeer peers =>
    if st.returned then none
    else if peers.Len < minDesiredPeerCount then some st
    else
      let r := st.batchTimer.Stop
      let e1 := st.effects ++ [SyncerEffect.timerStop r.1]
      let e2 := if r.1 then e1 ++ [SyncerEffect.goSync] else e1
      -- sync launched: leave the inner loop and make the next timer
      some ⟨Timer.armed, e2 ++ [SyncerEffect.afterFunc 10], false⟩
  | SyncerEvent.timerC => none
  | SyncerEvent.timerExpires =>
    if st.returned then none
    else if st.batchTimer = Timer.armed then
      some ⟨Timer.fired, st.effects ++ [SyncerEffect.timerSync], false⟩
    else none

/-- Run `syncer` over a sequence of events. -/
def syncerRun : SyncerState → List SyncerEvent → Option SyncerState
  | st, [] => some st
  | st, e :: es =>
    match syncerStep st e with
    | none => none
    | some st1 => syncerRun st1 es

/-! ## Example data -/

/-- Example chain for the concrete cases: current block 7 at height 0 with total
difficulty 100. -/
def chain100 : BlockChain := ⟨⟨7, 0⟩, fun _ => some 100⟩

/-- Example downloader: always succeeds and leaves the chain at height 500. -/
def downloaderTo500 : Downloader := fun bc _ _ _ _ => (true, { bc with CurrentBlock := ⟨9, 500⟩ })

/-- Example manager: fast sync configured, nothing synced yet. -/
def pmFast : ProtocolManager := ⟨1, 0, chain100, downloaderTo500⟩

/-- Example peers. -/
def peerA : peer := ⟨"a", 1, 5, 101⟩

/-- Second example peer. -/
def peerB : peer := ⟨"b", 2, 6, 90⟩

/-- Example backlog with serialized sizes 60 KiB, 60 KiB and 1 KiB. -/
def backlog3 : List Transaction := [⟨1, 60 * 1024⟩, ⟨2, 60 * 1024⟩, ⟨3, 1 * 1024⟩]

end Eth

/-! # State trie download scheduler (`core/state/sync.go`) -/

namespace State

/-- Scheduling requests made to the underlying `trie.TrieSync`. -/
inductive Request where
  | AddSubTrie (root : Eth.Hash) (depth : Nat) (parent : Eth.Hash)
  | AddRawEntry (hash : Eth.Hash) (depth : Nat) (parent : Eth.Hash)
  deriving DecidableEq, Repr

/-- The record the leaf callback decodes into. -/
structure Account where
  Nonce : Nat
  Balance : Int
  Root : Eth.Hash
  CodeHash : List Nat
  deriving DecidableEq, Repr

/-- The leaf callback installed by `NewStateSync` (lines 38-52). `Decode` is
`rlp.Decode` into the account record and `BytesToHash` is
`common.BytesToHash`; the result is the requests made to the trie sync, in
order, and the error returned (`none` for nil). -/
def callback (Decode : List Nat → Except String Account)
    (BytesToHash : List Nat → Eth.Hash) (leaf : List Nat) (parent : Eth.Hash) :
    List Request × Option String :=
  match Decode leaf with
  | Except.error err => ([], some err)
  | Except.ok obj =>
    ([Request.AddSubTrie obj.Root 64 parent,
      Request.AddRawEntry (BytesToHash obj.CodeHash) 64 parent], none)

end State

/-! # Big integer helpers (`common/big.go`) -/

namespace Common

/-- Method `(*big.Int).Lsh`: `x << n`. -/
def Lsh (x : Int) (n : Nat) : Int := x * 2 ^ n

/-- Value of one hexadecimal digit. -/
def hexDigit (c : Char) : Option Nat :=
  if '0' ≤ c ∧ c ≤ '9' then some (c.toNat - '0'.toNat)
  else if 'a' ≤ c ∧ c ≤ 'f' then some (c.toNat - 'a'.toNat + 10)
  else if 'A' ≤ c ∧ c ≤ 'F' then some (c.toNat - 'A'.toNat + 10)
  else none

/-- Reading a run of hexadecimal digits onto an accumulator. -/
def readHex : List Char → Nat → Option Nat
  | [], acc => some acc
  | c :: cs, acc =>
    match hexDigit c with
    | none => none
    | some d => readHex cs (acc * 16 + d)

/-- Method `(*big.Int).SetString(s, 16)` for an unsigned, unprefixed string:
the value, or `none` when the string is empty or has a character that is no
hexadecimal digit. -/
def SetString16 (s : String) : Option Int :=
  match s.toList with
  | [] => none
  | cs => (readHex cs 0).map Int.ofNat

/-- Constant `Big0`. -/
def Big0 : Int := 0

/-- Constant `Big1`. -/
def Big1 : Int := 1

/-- Constant `Big2`. -/
def Big2 : Int := 2

/-- Constant `Big3`. -/
def Big3 : Int := 3

/-- Constant `BigTrue`. -/
def BigTrue : Int := Big1

/-- Constant `BigFalse`. -/
def BigFalse : Int := 0

/-- Constant `Big32`. -/
def Big32 : Int := 32

/-- Constant `Big36`. -/
def Big36 : Int := 36

/-- Constant `Big97`. -/
def Big97 : Int := 97

/-- Constant `Big98`. -/
def Big98 : Int := 98

/-- Constant `Big256`, written `big.NewInt(0xff)` in the source. -/
def Big256 : Int := 0xff

/-- Constant `Big257`. -/
def Big257 : Int := 257

/-- Constant `MaxBig`: the first result of `SetString`, nil (`none`) had the
string not been a number. -/
def MaxBig : Option Int :=
  SetString16 "ffffffffffffffffffffffffffffffffffffffffffffffffffffffffffffffff"

/-- Method `(*big.Int).Exp(x, y, m)` as `math/big` documents it: `x**y mod |m|`;
if `y <= 0` the result is 1; if `m` is 0, the result is `x**y`. -/
def Exp (x y m : Int) : Int :=
  if y ≤ 0 then 1
  else if m = 0 then x ^ y.toNat
  else (x ^ y.toNat) % |m|

/-- Function `BigPow` (lines 41-46); the conversions `int64(a)`, `int64(b)` of
an `int` keep the value. -/
def BigPow (a b : Int) : Int :=
  Exp a b 0

/-- Method `(*big.Int).Bit`: bit `i` of `x` in two's complement. -/
def Bit (x : Int) (i : Nat) : Nat :=
  if x.testBit i then 1 else 0

/-- Method `(*big.Int).BitLen`: length of `|x|` in bits, 0 for 0. -/
def BitLen (x : Int) : Nat :=
  Nat.size x.natAbs

/-- Function `BitTest` (lines 48-50). -/
def BitTest (num : Int) (i : Nat) : Bool :=
  decide (Bit num i > 0)

/-- Constant `tt256`. -/
def tt256 : Int := Lsh 1 256

/-- Constant `tt256m1`. -/
def tt256m1 : Int := Lsh 1 256 - 1

/-- Constant `tt255`. -/
def tt255 : Int := Lsh 1 255

/-- Outcome of a function that takes a `*big.Int`: the value of the integer it
returns and the value its argument holds after the call. -/
structure Call where
  result : Int
  arg : Int
  deriving DecidableEq, Repr

/-- Function `U256` (lines 59-61): `x.And(x, tt256m1)` stores the result in `x`
and returns `x`. -/
def U256 (x : Int) : Call :=
  let z := Int.land x tt256m1
  ⟨z, z⟩

/-- Function `S256` (lines 63-70). -/
def S256 (x : Int) : Call :=
  if Eth.Cmp x tt255 < 0 then ⟨x, x⟩
  else ⟨x - tt256, x⟩

/-- The loop of `FirstBitSet` (lines 73-77) at index `i` with `left` indices
remaining below `v.BitLen()`, followed by the final `return v.BitLen()`. -/
def firstBitSetFrom (v : Int) : Nat → Nat → Nat
  | 0, _ => BitLen v
  | left + 1, i => if Bit v i > 0 then i else firstBitSetFrom v left (i + 1)

/-- Function `FirstBitSet` (lines 72-80). -/
def FirstBitSet (v : Int) : Nat :=
  firstBitSetFrom v (BitLen v) 0

/-- Method `(*big.Int).Bytes`: the absolute value as a big-endian byte slice,
without leading zero bytes. -/
def Bytes (x : Int) : List Nat :=
  (Nat.digits 256 x.natAbs).reverse

/-- Value of a byte slice read as a big-endian unsigned number. -/
def fromBigEndian (bs : List Nat) : Nat :=
  bs.foldl (fun acc b => acc * 256 + b) 0

/-- Function `BigToBytes` (lines 86-94). `base/8` is Go's truncating division;
`make` with a negative length is a run-time fault, rendered as `none`. -/
def BigToBytes (num : Int) (base : Int) : Option (List Nat) :=
  let n := Int.tdiv base 8
  if n < 0 then none
  else
    let ret := List.replicate n.toNat 0
    if (Bytes num).length > n.toNat then some (Bytes num)
    else some (ret.take (ret.length - (Bytes num).length) ++ Bytes num)

/-- Function `BigMax` (lines 99-105). -/
def BigMax (x y : Int) : Int :=
  if Eth.Cmp x y < 0 then y else x

/-- Function `BigMin` (lines 110-116). -/
def BigMin (x y : Int) : Int :=
  if Eth.Cmp x y > 0 then y else x

end Common

/-! ## Properties of `synchronise` -/

namespace Eth

theorem Sign_lt_one_iff (x : Int) : Sign x < 1 ↔ x < 1 := by
  unfold Sign
  split_ifs <;> omega

theorem Cmp_le_zero_iff (x y : Int) : Cmp x y ≤ 0 ↔ x ≤ y := by
  unfold Cmp
  split_ifs <;> omega

/-- Shape of the result when the peer has nothing to offer. -/
theorem synchronise_of_le (pm : ProtocolManager) (p : peer) (td : Int)
    (htd : pm.blockchain.GetTd pm.blockchain.CurrentBlock.Hash = some td)
    (h1 : 1 ≤ td) (hle : p.td ≤ td) :
    synchronise pm (some p) =
      ⟨pm, [Effect.currentBlock, Effect.getTd pm.blockchain.CurrentBlock.Hash,
        Effect.head p.id], false⟩ := by
  have hs : ¬ Sign td < 1 := by rw [Sign_lt_one_iff]; omega
  have hc : Cmp p.td td ≤ 0 := by rw [Cmp_le_zero_iff]; exact hle
  simp [synchronise, htd, hs, hc]

/-- Shape of the result when all three guards pass. -/
theorem synchronise_of_gt (pm : ProtocolManager) (p : peer) (td : Int)
    (htd : pm.blockchain.GetTd pm.blockchain.CurrentBlock.Hash = some td)
    (h1 : 1 ≤ td) (hgt : td < p.td) :
    synchronise pm (some p) =
      (let mode := if pm.fastSync = 1 then SyncMode.FastSync else SyncMode.FullSync
       let r := pm.downloader pm.blockchain p.id p.head p.td mode
       let e2 := [Effect.currentBlock, Effect.getTd pm.blockchain.CurrentBlock.Hash,
         Effect.head p.id, Effect.downloaderSynchronise p.id p.head p.td mode]
       if r.1 = false then ⟨{ pm with blockchain := r.2 }, e2, false⟩
       else if pm.fastSync = 1 then
         if r.2.CurrentBlock.NumberU64 > 0 then
           ⟨{ pm with blockchain := r.2, synced := 1, fastSync := 0 },
             e2 ++ [Effect.currentBlock, Effect.infof], false⟩
         else ⟨{ pm with blockchain := r.2, synced := 1 }, e2 ++ [Effect.currentBlock], false⟩
       else ⟨{ pm with blockchain := r.2, synced := 1 }, e2, false⟩) := by
  have hs : ¬ Sign td < 1 := by rw [Sign_lt_one_iff]; omega
  have hc : ¬ Cmp p.td td ≤ 0 := by rw [Cmp_le_zero_iff]; omega
  simp only [synchronise, htd, hs, hc, if_false]
  cases hr : (pm.downloader pm.blockchain p.id p.head p.td
      (if pm.fastSync = 1 then SyncMode.FastSync else SyncMode.FullSync)).1 <;>
    simp [hr]

/-- Flags, fatal report and exit status after a call in which all guards pass. -/
theorem synchronise_flags_of_gt (pm : ProtocolManager) (p : peer) (td : Int)
    (htd : pm.blockchain.GetTd pm.blockchain.CurrentBlock.Hash = some td)
    (h1 : 1 ≤ td) (hgt : td < p.td) :
    (synchronise pm (some p)).pm.synced =
      (if (pm.downloader pm.blockchain p.id p.head p.td
        (if pm.fastSync = 1 then SyncMode.FastSync else SyncMode.FullSync)).1 = true
       then 1 else pm.synced) ∧
    (synchronise pm (some p)).pm.fastSync =
      (if (pm.downloader pm.blockchain p.id p.head p.td
          (if pm.fastSync = 1 then SyncMode.FastSync else SyncMode.FullSync)).1 = true ∧
          pm.fastSync = 1 ∧
          0 < (pm.downloader pm.blockchain p.id p.head p.td
            (if pm.fastSync = 1 then SyncMode.FastSync
              else SyncMode.FullSync)).2.CurrentBlock.NumberU64
       then 0 else pm.fastSync) ∧
    reportsFatal (synchronise pm (some p)).effects = false ∧
    (synchronise pm (some p)).exited = false := by
  rw [synchronise_of_gt pm p td htd h1 hgt]
  dsimp only
  generalize pm.downloader pm.blockchain p.id p.head p.td
    (if pm.fastSync = 1 then SyncMode.FastSync else SyncMode.FullSync) = r
  rcases r with ⟨ok, bc⟩
  cases ok <;> by_cases hf : pm.fastSync = 1 <;> by_cases hn : 0 < bc.CurrentBlock.NumberU64 <;>
    simp [hf, hn, reportsFatal]

/-- One call either leaves the `fastSync` flag alone or lowers it from 1 to 0. -/
theorem synchronise_fastSync_step (pm : ProtocolManager) (p : Option peer) :
    (synchronise pm p).pm.fastSync = pm.fastSync ∨
      (pm.fastSync = 1 ∧ (synchronise pm p).pm.fastSync = 0) := by
  unfold synchronise
  cases p with
  | none => simp
  | some q =>
    dsimp only
    cases pm.blockchain.GetTd pm.blockchain.CurrentBlock.Hash with
    | none => simp
    | some td =>
      dsimp only
      split_ifs <;> simp_all

/-- Along any sequence of calls the flag trace is a run of one value followed,
at most, by a run of zeros that starts from the value 1. -/
theorem fastSyncTrace_chain (calls : List SyncCall) :
    ∀ f s, List.Chain' (fun a b => b = a ∨ (a = 1 ∧ b = 0)) (fastSyncTrace f s calls) ∧
      (fastSyncTrace f s calls).head? = some f := by
  induction calls with
  | nil => intro f s; simp [fastSyncTrace]
  | cons c cs ih =>
    intro f s
    have hstep := synchronise_fastSync_step ⟨f, s, c.blockchain, c.downloader⟩ c.target
    simp only [fastSyncTrace]
    split_ifs with hx
    · exact ⟨by simpa using hstep, rfl⟩
    · obtain ⟨hc, hh⟩ := ih
        (synchronise ⟨f, s, c.blockchain, c.downloader⟩ c.target).pm.fastSync
        (synchronise ⟨f, s, c.blockchain, c.downloader⟩ c.target).pm.synced
      refine ⟨?_, rfl⟩
      rw [List.chain'_cons']
      refine ⟨?_, hc⟩
      intro y hy
      rw [hh] at hy
      have : y = (synchronise ⟨f, s, c.blockchain, c.downloader⟩ c.target).pm.fastSync := by
        simpa using hy.symm
      subst this
      exact hstep

/-- A trace in which every step keeps the value or lowers it from 1 to 0
changes at most once, and not at all unless it starts at 1. -/
theorem changes_le_of_chain (l : List Nat)
    (h : List.Chain' (fun a b => b = a ∨ (a = 1 ∧ b = 0)) l) :
    changes l ≤ (if l.head? = some 1 then 1 else 0) ∧
      (l.head? ≠ some 1 → ∀ v ∈ l, some v = l.head?) := by
  induction l with
  | nil => simp [changes]
  | cons a rest ih =>
    cases rest with
    | nil => simp [changes]
    | cons b rest2 =>
      rw [List.chain'_cons] at h
      obtain ⟨hab, hrest⟩ := h
      obtain ⟨ih1, ih2⟩ := ih hrest
      simp only [List.head?_cons, Option.some.injEq, changes] at ih1 ih2 ⊢
      rcases hab with hab | ⟨ha, hb⟩
      · subst hab
        refine ⟨by simpa using ih1, fun hne v hv => ?_⟩
        rcases List.mem_cons.1 hv with hv | hv
        · exact hv
        · exact ih2 hne v hv
      · subst ha hb
        have h0 : changes (0 :: rest2) = 0 := by simpa using ih1
        refine ⟨by simp [h0], fun hne => absurd rfl hne⟩

end Eth

namespace Eth

/-- C1: for a non-nil peer and a stored total difficulty `td >= 1` of the current
block, `synchronise` returns without any downloader call and with both flags
unchanged when the peer claims `pTd <= td`; when `pTd > td` it calls the
downloader exactly once, with the peer's id, claimed head and `pTd`, in mode
FastSync when the `fastSync` flag is 1 and FullSync when it is 0. -/
theorem synchronise_gate (pm : ProtocolManager) (p : peer) (td : Int)
    (htd : pm.blockchain.GetTd pm.blockchain.CurrentBlock.Hash = some td)
    (h1 : 1 ≤ td) :
    (p.td ≤ td →
      downloaderCalls (synchronise pm (some p)).effects = 0 ∧
      (synchronise pm (some p)).exited = false ∧
      (synchronise pm (some p)).pm.fastSync = pm.fastSync ∧
      (synchronise pm (some p)).pm.synced = pm.synced) ∧
    (td < p.td →
      downloaderCalls (synchronise pm (some p)).effects = 1 ∧
      (pm.fastSync = 1 →
        Effect.downloaderSynchronise p.id p.head p.td SyncMode.FastSync ∈
          (synchronise pm (some p)).effects) ∧
      (pm.fastSync = 0 →
        Effect.downloaderSynchronise p.id p.head p.td SyncMode.FullSync ∈
          (synchronise pm (some p)).effects)) := by
  refine ⟨fun hle => ?_, fun hgt => ?_⟩
  · rw [synchronise_of_le pm p td htd h1 hle]
    simp [downloaderCalls]
  · rw [synchronise_of_gt pm p td htd h1 hgt]
    refine ⟨?_, fun hf => ?_, fun hf => ?_⟩
    · dsimp only
      split_ifs <;> simp [downloaderCalls]
    · dsimp only
      split_ifs <;> simp_all
    · dsimp only
      split_ifs <;> simp_all

/-- Concrete case of C1: local weight 100; a peer claiming 100 causes no downloader
call, a peer claiming 101 causes exactly one, in FastSync mode. -/
theorem synchronise_gate_witness :
    downloaderCalls (synchronise pmFast (some ⟨"a", 1, 5, 100⟩)).effects = 0 ∧
    downloaderCalls (synchronise pmFast (some ⟨"a", 1, 5, 101⟩)).effects = 1 ∧
    Effect.downloaderSynchronise "a" 5 101 SyncMode.FastSync ∈
      (synchronise pmFast (some ⟨"a", 1, 5, 101⟩)).effects :=
  ⟨((synchronise_gate pmFast ⟨"a", 1, 5, 100⟩ 100 rfl (by decide)).1 (by decide)).1,
   ((synchronise_gate pmFast ⟨"a", 1, 5, 101⟩ 100 rfl (by decide)).2 (by decide)).1,
   ((synchronise_gate pmFast ⟨"a", 1, 5, 101⟩ 100 rfl (by decide)).2 (by decide)).2.1 rfl⟩

/-- C4: when the guards pass (non-nil peer, local `td >= 1`, peer td above it) and
the downloader answers true, `synced` is 1 afterwards and `fastSync` becomes 0 if
it was 1 and the current block number after the sync is positive, stays 1 if it
was 1 and that number is 0, and stays 0 if it was 0; when the downloader answers
false both flags are unchanged, nothing fatal is reported and the call returns. -/
theorem synchronise_flags (pm : ProtocolManager) (p : peer) (td : Int)
    (htd : pm.blockchain.GetTd pm.blockchain.CurrentBlock.Hash = some td)
    (h1 : 1 ≤ td) (hgt : td < p.td) :
    let mode := if pm.fastSync = 1 then SyncMode.FastSync else SyncMode.FullSync
    let r := pm.downloader pm.blockchain p.id p.head p.td mode
    let out := synchronise pm (some p)
    (r.1 = true →
      out.pm.synced = 1 ∧
      (pm.fastSync = 1 → 0 < r.2.CurrentBlock.NumberU64 → out.pm.fastSync = 0) ∧
      (pm.fastSync = 1 → r.2.CurrentBlock.NumberU64 = 0 → out.pm.fastSync = 1) ∧
      (pm.fastSync = 0 → out.pm.fastSync = 0)) ∧
    (r.1 = false →
      out.pm.synced = pm.synced ∧ out.pm.fastSync = pm.fastSync ∧
      reportsFatal out.effects = false ∧ out.exited = false) := by
  intro mode r out
  obtain ⟨hs, hf, hfat, hex⟩ := synchronise_flags_of_gt pm p td htd h1 hgt
  refine ⟨fun hr => ⟨?_, fun h1 hn => ?_, fun h1 hn => ?_, fun h0 => ?_⟩,
    fun hr => ⟨?_, ?_, hfat, hex⟩⟩
  · rw [show out.pm.synced = _ from hs, if_pos hr]
  · rw [show out.pm.fastSync = _ from hf, if_pos ⟨hr, h1, hn⟩]
  · have hn0 : r.2.CurrentBlock.NumberU64 = 0 := hn
    rw [show out.pm.fastSync = _ from hf,
      if_neg (fun h => by have h2 : 0 < r.2.CurrentBlock.NumberU64 := h.2.2; omega), h1]
  · rw [show out.pm.fastSync = _ from hf, if_neg (fun h => by have := h.2.1; omega), h0]
  · have hr0 : ¬ r.1 = true := by simp [hr]
    rw [show out.pm.synced = _ from hs, if_neg hr0]
  · have hr0 : ¬ r.1 = true := by simp [hr]
    rw [show out.pm.fastSync = _ from hf, if_neg (fun h => hr0 h.1)]

/-- Concrete case of C4: fast sync configured, one successful call reaching height
500; afterwards the node is marked synced and the mode flag reads FullSync. -/
theorem synchronise_flags_witness :
    (synchronise pmFast (some ⟨"a", 1, 5, 101⟩)).pm.synced = 1 ∧
    (synchronise pmFast (some ⟨"a", 1, 5, 101⟩)).pm.fastSync = 0 :=
  ⟨((synchronise_flags pmFast ⟨"a", 1, 5, 101⟩ 100 rfl (by decide) (by decide)).1 rfl).1,
   ((synchronise_flags pmFast ⟨"a", 1, 5, 101⟩ 100 rfl (by decide) (by decide)).1 rfl).2.1
      rfl (by decide)⟩

/-- C5: the sync mode is monotone. A call of `synchronise` that starts with the
`fastSync` flag at 0 ends with it at 0, for any peer, chain and downloader; every
call either keeps the flag or lowers it from 1 to 0; hence along every sequence of
calls the flag changes at most once and, once it differs from 1 (FullSync), it
keeps its value for the rest of the sequence. -/
theorem fastSync_monotone :
    (∀ (pm : ProtocolManager) (p : Option peer),
      pm.fastSync = 0 → (synchronise pm p).pm.fastSync = 0) ∧
    (∀ (pm : ProtocolManager) (p : Option peer),
      (synchronise pm p).pm.fastSync = pm.fastSync ∨
        (pm.fastSync = 1 ∧ (synchronise pm p).pm.fastSync = 0)) ∧
    (∀ (f s : Nat) (calls : List SyncCall), changes (fastSyncTrace f s calls) ≤ 1) ∧
    (∀ (f s : Nat) (calls : List SyncCall),
      f ≠ 1 → ∀ v ∈ fastSyncTrace f s calls, v = f) := by
  refine ⟨fun pm p h0 => ?_, synchronise_fastSync_step, fun f s calls => ?_,
    fun f s calls hf v hv => ?_⟩
  · rcases synchronise_fastSync_step pm p with h | ⟨h, _⟩
    · rw [h, h0]
    · omega
  · obtain ⟨hc, _⟩ := fastSyncTrace_chain calls f s
    have := (changes_le_of_chain _ hc).1
    split_ifs at this <;> omega
  · obtain ⟨hc, hh⟩ := fastSyncTrace_chain calls f s
    have := (changes_le_of_chain _ hc).2 (by rw [hh]; simpa using hf) v hv
    rw [hh] at this
    simpa using this

/-- Concrete case of C5: a manager already in FullSync mode stays in FullSync
mode after a successful synchronisation. -/
theorem fastSync_monotone_witness :
    (synchronise ⟨0, 0, chain100, downloaderTo500⟩ (some ⟨"a", 1, 5, 101⟩)).pm.fastSync = 0 :=
  fastSync_monotone.1 ⟨0, 0, chain100, downloaderTo500⟩ (some ⟨"a", 1, 5, 101⟩) rfl

/-- C7: `synchronise` reports the fatal invalid-TD condition exactly when the peer
is non-nil and the total difficulty stored for the current block is nil or below
1; in that case the downloader is not called and neither flag changes. With a
nil peer it returns at once: no chain read, no downloader call, no report and
no flag change, whatever total difficulty is stored. -/
theorem synchronise_fatal (pm : ProtocolManager) :
    (∀ p : Option peer,
      reportsFatal (synchronise pm p).effects = true ↔
        (p ≠ none ∧
          (pm.blockchain.GetTd pm.blockchain.CurrentBlock.Hash = none ∨
            ∃ td, pm.blockchain.GetTd pm.blockchain.CurrentBlock.Hash = some td ∧ td < 1))) ∧
    (∀ p : Option peer,
      reportsFatal (synchronise pm p).effects = true →
        downloaderCalls (synchronise pm p).effects = 0 ∧
        (synchronise pm p).pm.fastSync = pm.fastSync ∧
        (synchronise pm p).pm.synced = pm.synced ∧
        (synchronise pm p).exited = true) ∧
    ((synchronise pm none).effects = [] ∧
      readsChain (synchronise pm none).effects = false ∧
      downloaderCalls (synchronise pm none).effects = 0 ∧
      reportsFatal (synchronise pm none).effects = false ∧
      (synchronise pm none).exited = false ∧
      (synchronise pm none).pm.fastSync = pm.fastSync ∧
      (synchronise pm none).pm.synced = pm.synced) := by
  refine ⟨fun p => ?_, fun p => ?_, by simp [synchronise, readsChain, downloaderCalls, reportsFatal]⟩
  · cases p with
    | none => simp [synchronise, reportsFatal]
    | some q =>
      unfold synchronise
      dsimp only
      cases htd : pm.blockchain.GetTd pm.blockchain.CurrentBlock.Hash with
      | none => simp [reportsFatal]
      | some td =>
        dsimp only
        have hsg := Sign_lt_one_iff td
        split_ifs <;> simp_all [reportsFatal]
  · cases p with
    | none => simp [synchronise, reportsFatal]
    | some q =>
      unfold synchronise
      dsimp only
      cases htd : pm.blockchain.GetTd pm.blockchain.CurrentBlock.Hash with
      | none => simp [reportsFatal, downloaderCalls]
      | some td =>
        dsimp only
        split_ifs <;> simp_all [reportsFatal, downloaderCalls]

/-- Concrete case of C7: a stored total difficulty of 0 is reported as fatal for a
non-nil peer, without any downloader call. -/
theorem synchronise_fatal_witness :
    downloaderCalls
      (synchronise ⟨1, 0, ⟨⟨7, 3⟩, fun _ => some 0⟩, downloaderTo500⟩
        (some ⟨"a", 1, 5, 101⟩)).effects = 0 :=
  ((synchronise_fatal ⟨1, 0, ⟨⟨7, 3⟩, fun _ => some 0⟩, downloaderTo500⟩).2.1
    (some ⟨"a", 1, 5, 101⟩) rfl).1

end Eth


/-! ## Properties of pack construction in `send` -/

namespace Eth

theorem totalSize_nil : totalSize [] = 0 := rfl

theorem totalSize_cons (tx : Transaction) (txs : List Transaction) :
    totalSize (tx :: txs) = tx.Size + totalSize txs := by
  simp [totalSize]

theorem totalSize_append (a b : List Transaction) :
    totalSize (a ++ b) = totalSize a + totalSize b := by
  simp [totalSize]

/-- Sizes are non-negative, so a shorter initial segment weighs no more. -/
theorem totalSize_take_le (txs : List Transaction) (i j : Nat) (h : i ≤ j) :
    totalSize (txs.take i) ≤ totalSize (txs.take j) := by
  have : txs.take j = txs.take i ++ (txs.take j).drop i := by
    have h2 := List.take_append_drop i (txs.take j)
    rw [List.take_take, Nat.min_eq_left h] at h2
    exact h2.symm
  rw [this, totalSize_append]
  omega

/-- What the fill loop computes from any intermediate point: it appends the
shortest initial segment of the remaining transactions that brings the
accumulated size to the target, or all of them if none does. -/
theorem fillPack_spec (rest : List Transaction) :
    ∀ (pack : List Transaction) (size : Nat),
      ∃ j, j ≤ rest.length ∧
        fillPack rest pack size = (pack ++ rest.take j, size + totalSize (rest.take j)) ∧
        (∀ i, i < j → size + totalSize (rest.take i) < txsyncPackSize) ∧
        (j < rest.length → txsyncPackSize ≤ size + totalSize (rest.take j)) := by
  induction rest with
  | nil =>
    intro pack size
    exact ⟨0, by simp [fillPack, totalSize]⟩
  | cons tx rest ih =>
    intro pack size
    by_cases hlt : size < txsyncPackSize
    · obtain ⟨j, hj, heq, hless, hge⟩ := ih (pack ++ [tx]) (size + tx.Size)
      refine ⟨j + 1, by simpa using hj, ?_, ?_, ?_⟩
      · simp only [fillPack, if_pos hlt, heq, List.take_succ_cons, totalSize_cons]
        simp [Nat.add_assoc]
      · intro i hi
        cases i with
        | zero => simpa [totalSize] using hlt
        | succ i =>
          have := hless i (by omega)
          simp only [List.take_succ_cons, totalSize_cons]
          omega
      · intro hj2
        have := hge (by simpa using hj2)
        simp only [List.take_succ_cons, totalSize_cons]
        omega
    · refine ⟨0, by simp, ?_, ?_, ?_⟩
      · simp [fillPack, if_neg hlt, totalSize]
      · intro i hi; omega
      · intro _; simp only [List.take_zero, totalSize_nil]; omega

/-- Line 80 keeps exactly the transactions behind the pack. -/
theorem remaining_eq_drop (txs : List Transaction) :
    remaining txs = txs.drop (packTxs txs).length := by
  simp only [remaining, copy, List.length_drop]
  have hmin : min txs.length (txs.length - (packTxs txs).length) =
      txs.length - (packTxs txs).length := by omega
  rw [hmin, List.take_append_of_le_length (by simp)]
  rw [List.take_take, Nat.min_self]
  exact List.take_of_length_le (by simp)

/-- The pack is the initial segment of the backlog of its own length, and that
length is the least index at which the target is reached, if there is one. -/
theorem packTxs_spec (txs : List Transaction) :
    (packTxs txs).length ≤ txs.length ∧
    packTxs txs = txs.take (packTxs txs).length ∧
    (∀ i, i < (packTxs txs).length → totalSize (txs.take i) < txsyncPackSize) ∧
    ((packTxs txs).length < txs.length →
      txsyncPackSize ≤ totalSize (txs.take (packTxs txs).length)) := by
  obtain ⟨j, hj, heq, hless, hge⟩ := fillPack_spec txs [] 0
  have hp : packTxs txs = txs.take j := by simp [packTxs, heq]
  have hlen : (packTxs txs).length = j := by rw [hp, List.length_take]; omega
  rw [hlen]
  exact ⟨hj, hp, fun i hi => by simpa using hless i hi, fun h => by simpa using hge h⟩

theorem packTxs_ne_nil (txs : List Transaction) (h : txs ≠ []) : packTxs txs ≠ [] := by
  cases txs with
  | nil => exact absurd rfl h
  | cons tx rest =>
    obtain ⟨j, _, heq, _, _⟩ := fillPack_spec rest ([] ++ [tx]) (0 + tx.Size)
    have h0 : (0 : Nat) < txsyncPackSize := by unfold txsyncPackSize; omega
    simp only [packTxs, fillPack, if_pos h0, heq]
    simp

/-- Pack built from three transactions when the first alone is below the target
and the first two together reach it. -/
theorem packTxs_three (a b c : Transaction) (h1 : a.Size < txsyncPackSize)
    (h2 : txsyncPackSize ≤ a.Size + b.Size) : packTxs [a, b, c] = [a, b] := by
  have e0 : (0 : Nat) < txsyncPackSize := by unfold txsyncPackSize; omega
  have e1 : 0 + a.Size < txsyncPackSize := by omega
  have e2 : ¬ (0 + a.Size + b.Size < txsyncPackSize) := by omega
  simp only [packTxs, fillPack, if_pos e0, if_pos e1, if_neg e2, List.nil_append,
    List.cons_append]

/-- C2 as stated fails: for the backlog of sizes 60 KiB, 60 KiB, 1 KiB, `send`
does not build the pack `[60 KiB]` with `[60 KiB, 1 KiB]` left over. -/
theorem pack_60_60_1_counterexample :
    ¬ ((send LoopState.init 1 ⟨peerA, backlog3⟩).pack = some ⟨peerA, [⟨1, 60 * 1024⟩]⟩ ∧
       remaining backlog3 = [⟨2, 60 * 1024⟩, ⟨3, 1 * 1024⟩]) := by
  decide

/-- C2, amended: with the 100 KiB target, for any peer and any three transactions
of serialized sizes 60 KiB, 60 KiB and 1 KiB in that order, the pack built by
`send` holds the first two transactions (the target is tested against the size
accumulated before each append, and 60 KiB is below it) and the backlog left
for the peer is the third transaction alone. -/
theorem pack_60_60_1 (st : LoopState) (k : NodeID) (p : peer) (a b c : Transaction)
    (ha : a.Size = 60 * 1024) (hb : b.Size = 60 * 1024) (_hc : c.Size = 1 * 1024) :
    (send st k ⟨p, [a, b, c]⟩).pack = some ⟨p, [a, b]⟩ ∧
    (send st k ⟨p, [a, b, c]⟩).sent = st.sent ++ [⟨p, [a, b]⟩] ∧
    remaining [a, b, c] = [c] ∧
    mapGet (send ⟨[(p.ID, ⟨p, [a, b, c]⟩)], false, none, 0, [], false⟩ p.ID
        ⟨p, [a, b, c]⟩).pending p.ID = some ⟨p, [c]⟩ := by
  have hp : packTxs [a, b, c] = [a, b] :=
    packTxs_three a b c (by rw [ha]; unfold txsyncPackSize; omega)
      (by rw [ha, hb]; unfold txsyncPackSize; omega)
  have hr : remaining [a, b, c] = [c] := by
    rw [remaining_eq_drop, hp]; rfl
  refine ⟨by simp only [send, hp], by simp only [send, hp], hr, ?_⟩
  simp [send, hr, mapMutate, mapGet]

/-- Concrete case of C2, amended: the example backlog registered with an idle
loop. -/
theorem pack_60_60_1_witness :
    (send LoopState.init 1 ⟨peerA, backlog3⟩).pack =
      some ⟨peerA, [⟨1, 60 * 1024⟩, ⟨2, 60 * 1024⟩]⟩ ∧
    remaining backlog3 = [⟨3, 1 * 1024⟩] :=
  ⟨(pack_60_60_1 LoopState.init 1 peerA ⟨1, 60 * 1024⟩ ⟨2, 60 * 1024⟩ ⟨3, 1 * 1024⟩
      rfl rfl rfl).1,
   (pack_60_60_1 LoopState.init 1 peerA ⟨1, 60 * 1024⟩ ⟨2, 60 * 1024⟩ ⟨3, 1 * 1024⟩
      rfl rfl rfl).2.2.1⟩

/-- C3: `send` splits a backlog `txs` at the index `k = len(pack)`: the pack is
the first `k` transactions in order, the backlog left is the transactions after
them in order, and `k` is the least index at which the sizes of the first `k`
transactions sum to at least the target `100*1024`, or `len(txs)` when the whole
backlog sums to less. The pack is non-empty whenever the backlog is, and its
members other than the last sum to strictly less than the target. -/
theorem send_split (txs : List Transaction) :
    txsyncPackSize = 100 * 1024 ∧
    (packTxs txs).length ≤ txs.length ∧
    packTxs txs = txs.take (packTxs txs).length ∧
    remaining txs = txs.drop (packTxs txs).length ∧
    (txsyncPackSize ≤ totalSize txs →
      txsyncPackSize ≤ totalSize (txs.take (packTxs txs).length) ∧
      ∀ j, j < (packTxs txs).length → totalSize (txs.take j) < txsyncPackSize) ∧
    (totalSize txs < txsyncPackSize → (packTxs txs).length = txs.length) ∧
    (txs ≠ [] → packTxs txs ≠ []) ∧
    totalSize (packTxs txs).dropLast < txsyncPackSize ∧
    (∀ (st : LoopState) (key : NodeID) (p : peer),
      (send st key ⟨p, txs⟩).pack = some ⟨p, txs.take (packTxs txs).length⟩ ∧
      (send st key ⟨p, txs⟩).sent = st.sent ++ [⟨p, txs.take (packTxs txs).length⟩]) := by
  obtain ⟨hle, htake, hless, hge⟩ := packTxs_spec txs
  have hT : (0 : Nat) < txsyncPackSize := by unfold txsyncPackSize; omega
  refine ⟨rfl, hle, htake, remaining_eq_drop txs, fun htot => ⟨?_, hless⟩, fun htot => ?_,
    packTxs_ne_nil txs, ?_, fun st key p => ?_⟩
  · rcases Nat.lt_or_ge (packTxs txs).length txs.length with h | h
    · exact hge h
    · rw [List.take_of_length_le h]; exact htot
  · by_contra hne
    have := hge (by omega)
    have := totalSize_take_le txs (packTxs txs).length txs.length hle
    rw [List.take_length] at this
    omega
  · rw [List.dropLast_eq_take]
    rcases Nat.eq_zero_or_pos (packTxs txs).length with h0 | hpos
    · rw [h0]; simpa [totalSize] using hT
    · have h1 := hless ((packTxs txs).length - 1) (by omega)
      have h2 : (packTxs txs).take ((packTxs txs).length - 1) =
          txs.take ((packTxs txs).length - 1) := by
        have h3 : (packTxs txs).take ((packTxs txs).length - 1) =
            (txs.take (packTxs txs).length).take ((packTxs txs).length - 1) := by
          rw [← htake]
        rw [h3, List.take_take, Nat.min_eq_left (by omega)]
      rw [h2]; exact h1
  · rw [← htake]
    simp [send]

/-- Concrete case of C3: the three-transaction backlog gives a non-empty pack. -/
theorem send_split_witness : backlog3 ≠ [] ∧ packTxs backlog3 ≠ [] :=
  ⟨by decide, (send_split backlog3).2.2.2.2.2.2.1 (by decide)⟩

end Eth

/-! ## The pending map -/

namespace Eth

theorem mapGet_append (a b : Pending) (k : NodeID) :
    mapGet (a ++ b) k = (mapGet a k).orElse (fun _ => mapGet b k) := by
  induction a with
  | nil => simp [mapGet]
  | cons e a ih =>
    simp only [List.cons_append, mapGet]
    split_ifs <;> simp [ih]

theorem mapGet_mapDelete_self (m : Pending) (k : NodeID) : mapGet (mapDelete m k) k = none := by
  induction m with
  | nil => rfl
  | cons e m ih =>
    by_cases h : e.1 = k
    · simpa [mapDelete, List.filter_cons, h] using ih
    · simpa [mapDelete, List.filter_cons, h, mapGet] using ih

theorem mapGet_mapDelete_ne (m : Pending) (k j : NodeID) (h : j ≠ k) :
    mapGet (mapDelete m k) j = mapGet m j := by
  induction m with
  | nil => rfl
  | cons e m ih =>
    have ih2 : mapGet (List.filter (fun e => decide (e.1 ≠ k)) m) j = mapGet m j := ih
    by_cases hk : e.1 = k
    · have hj : ¬ e.1 = j := fun hj => h (hj.symm.trans hk)
      have hd : decide (e.1 ≠ k) = false := by simp [hk]
      simp only [mapDelete, List.filter_cons, hd, mapGet, hj, if_false]
      exact ih
    · have hd : decide (e.1 ≠ k) = true := by simp [hk]
      simp only [mapDelete, List.filter_cons, hd, if_true, mapGet]
      rw [show mapGet (List.filter (fun e => decide (e.1 ≠ k)) m) j = mapGet m j from ih]

theorem mapGet_mapSet_self (m : Pending) (k : NodeID) (v : txsync) :
    mapGet (mapSet m k v) k = some v := by
  simp [mapSet, mapGet_append, mapGet_mapDelete_self, mapGet]

theorem mapGet_mapSet_ne (m : Pending) (k j : NodeID) (v : txsync) (h : j ≠ k) :
    mapGet (mapSet m k v) j = mapGet m j := by
  have hk : ¬ k = j := fun hk => h hk.symm
  simp only [mapSet, mapGet_append, mapGet_mapDelete_ne m k j h, mapGet, hk, if_false]
  cases mapGet m j <;> rfl

theorem mapGet_mapMutate_ne (m : Pending) (k j : NodeID) (v : txsync) (h : j ≠ k) :
    mapGet (mapMutate m k v) j = mapGet m j := by
  induction m with
  | nil => rfl
  | cons e m ih =>
    have ih2 : mapGet (List.map (fun e => if e.1 = k then (e.1, v) else e) m) j = mapGet m j := ih
    by_cases hk : e.1 = k
    · have hj : ¬ e.1 = j := fun hj => h (hj.symm.trans hk)
      simp only [mapMutate, List.map_cons, hk, if_true, mapGet, ih2]
      rw [← hk]; simp only [hj, if_false]
    · simp only [mapMutate, List.map_cons, hk, if_false, mapGet, ih2]

theorem mapGet_mapMutate_self (m : Pending) (k : NodeID) (v : txsync) :
    mapGet (mapMutate m k v) k = (mapGet m k).map (fun _ => v) := by
  induction m with
  | nil => rfl
  | cons e m ih =>
    have ih2 : mapGet (List.map (fun e => if e.1 = k then (e.1, v) else e) m) k =
        (mapGet m k).map (fun _ => v) := ih
    by_cases hk : e.1 = k
    · simp [mapMutate, hk, mapGet]
    · simp only [mapMutate, List.map_cons, hk, if_false, mapGet, ih2]

theorem keys_mapMutate (m : Pending) (k : NodeID) (v : txsync) :
    (mapMutate m k v).map Prod.fst = m.map Prod.fst := by
  induction m with
  | nil => rfl
  | cons e m ih =>
    have ih2 : List.map Prod.fst (List.map (fun e => if e.1 = k then (e.1, v) else e) m) =
        List.map Prod.fst m := ih
    simp only [mapMutate, List.map_cons, ih2]
    split_ifs <;> rfl

theorem mem_mapDelete (m : Pending) (k : NodeID) (e : NodeID × txsync) :
    e ∈ mapDelete m k ↔ e ∈ m ∧ e.1 ≠ k := by
  simp [mapDelete]

theorem nodup_keys_mapDelete (m : Pending) (k : NodeID) (h : (m.map Prod.fst).Nodup) :
    ((mapDelete m k).map Prod.fst).Nodup :=
  h.sublist ((List.filter_sublist m).map Prod.fst)

theorem nodup_keys_mapSet (m : Pending) (k : NodeID) (v : txsync)
    (h : (m.map Prod.fst).Nodup) : ((mapSet m k v).map Prod.fst).Nodup := by
  simp only [mapSet, List.map_append, List.map_cons, List.map_nil]
  rw [List.nodup_append]
  refine ⟨nodup_keys_mapDelete m k h, List.nodup_singleton k, ?_⟩
  intro a ha hk
  simp only [List.mem_singleton] at hk
  subst hk
  obtain ⟨e, he, rfl⟩ := List.mem_map.1 ha
  exact ((mem_mapDelete m e.1 e).1 he).2 rfl

theorem mem_mapMutate (m : Pending) (k : NodeID) (v : txsync) (e : NodeID × txsync)
    (h : e ∈ mapMutate m k v) : e ∈ m ∨ e = (k, v) := by
  obtain ⟨x, hx, hxe⟩ := List.mem_map.1 h
  by_cases hk : x.1 = k
  · right; rw [← hxe]; simp [hk]
  · left; rw [← hxe]; simpa [hk] using hx

/-- With one entry per key, the map read returns the entry that is stored. -/
theorem mapGet_of_mem (m : Pending) (h : (m.map Prod.fst).Nodup) (e : NodeID × txsync)
    (he : e ∈ m) : mapGet m e.1 = some e.2 := by
  induction m with
  | nil => cases he
  | cons x m ih =>
    simp only [List.map_cons, List.nodup_cons] at h
    rcases List.mem_cons.1 he with rfl | hm
    · simp [mapGet]
    · have hne : ¬ x.1 = e.1 := fun hx => h.1 (hx ▸ List.mem_map_of_mem Prod.fst hm)
      simp only [mapGet, hne, if_false]
      exact ih h.2 hm

theorem mem_of_mapGet (m : Pending) (k : NodeID) (v : txsync) (h : mapGet m k = some v) :
    (k, v) ∈ m := by
  induction m with
  | nil => cases h
  | cons x m ih =>
    simp only [mapGet] at h
    split_ifs at h with hx
    · cases h; subst hx; exact List.mem_cons_self _ _
    · exact List.mem_cons_of_mem _ (ih h)

end Eth

/-! ## Properties of `pick` -/

namespace Eth

/-- The counter loop started at `r + 1` stops at position `r` of the order. -/
theorem pickLoop_eq_getElem? (order : List (NodeID × txsync)) :
    ∀ r : Nat, pickLoop order ((r : Int) + 1) = order[r]? := by
  induction order with
  | nil => intro r; simp [pickLoop]
  | cons e rest ih =>
    intro r
    cases r with
    | zero => simp [pickLoop]
    | succ r =>
      have hne : ¬ ((((r + 1 : Nat) : Int) + 1) - 1 = 0) := by omega
      have heq : (((r + 1 : Nat) : Int) + 1) - 1 = (r : Int) + 1 := by omega
      rw [pickLoop, if_neg hne, heq, ih r, List.getElem?_cons_succ]

/-- For a draw within range `pick` finds the entry at that position. -/
theorem pick_found (pending : Pending) (order : List (NodeID × txsync))
    (hperm : order.Perm pending) (r : Nat) (hr : r < pending.length) :
    ∃ e, order[r]? = some e ∧ pick pending order r = PickResult.found e ∧ e ∈ pending := by
  have hlen : order.length = pending.length := hperm.length_eq
  have hr2 : r < order.length := by omega
  refine ⟨order[r], List.getElem?_eq_getElem hr2, ?_, hperm.subset (List.getElem_mem hr2)⟩
  have h0 : ¬ pending.length = 0 := by omega
  simp only [pick, if_neg h0, pickLoop_eq_getElem?, List.getElem?_eq_getElem hr2]

/-- The results of `pick` over all possible draws, listed by draw, are the
enumerated entries in enumeration order. -/
theorem pick_range (pending : Pending) (order : List (NodeID × txsync))
    (hperm : order.Perm pending) :
    (List.range pending.length).map (fun r => pick pending order r) =
      order.map PickResult.found := by
  have hlen : order.length = pending.length := hperm.length_eq
  apply List.ext_getElem
  · simp [hlen]
  · intro i h1 h2
    have hi : i < pending.length := by simpa using h1
    obtain ⟨e, he, hp, _⟩ := pick_found pending order hperm i hi
    have hi2 : i < order.length := by omega
    rw [List.getElem?_eq_getElem hi2] at he
    simp only [List.getElem_map, List.getElem_range, hp]
    congr 1
    exact (Option.some.inj he).symm

/-- C10: `pick` returns nil exactly when the pending map is empty. For a non-empty
map with `m` entries, enumerated in any order, and a draw `n = r + 1` with
`r = rand.Intn(m)` in `0..m-1`, `pick` returns the `n`-th enumerated entry, which is
an entry of the map; listed by draw, the picked entries are a rearrangement of
the map's entries, so with one entry per key every entry is picked by exactly
one of the `m` draws; the final `return nil` is never reached. -/
theorem pick_uniform (pending : Pending) (order : List (NodeID × txsync))
    (hperm : order.Perm pending) :
    (∀ r, (pending.length = 0 ∨ r < pending.length) →
      ((pick pending order r).value = none ↔ pending = [])) ∧
    (∀ r, r < pending.length →
      ∃ e, order[r]? = some e ∧ pick pending order r = PickResult.found e ∧
        (pick pending order r).value = some e.2 ∧ e ∈ pending) ∧
    ((List.range pending.length).map (fun r => pick pending order r) =
        order.map PickResult.found ∧
      (order.map PickResult.found).Perm (pending.map PickResult.found)) ∧
    ((pending.map Prod.fst).Nodup → ∀ e ∈ pending,
      ((List.range pending.length).filter
        (fun r => pick pending order r = PickResult.found e)).length = 1) ∧
    (∀ r, (pending.length = 0 ∨ r < pending.length) →
      pick pending order r ≠ PickResult.fellThrough) := by
  refine ⟨fun r hr => ?_, fun r hr => ?_, ⟨pick_range pending order hperm, hperm.map _⟩,
    fun hnd e he => ?_, fun r hr => ?_⟩
  · constructor
    · intro hnone
      by_contra hne
      have hpos : 0 < pending.length := List.length_pos.2 hne
      have hr2 : r < pending.length := by omega
      obtain ⟨e, _, hp, _⟩ := pick_found pending order hperm r hr2
      rw [hp] at hnone
      simp [PickResult.value] at hnone
    · intro hnil
      subst hnil
      simp [pick, PickResult.value]
  · obtain ⟨e, he, hp, hmem⟩ := pick_found pending order hperm r hr
    exact ⟨e, he, hp, by rw [hp]; rfl, hmem⟩
  · have hnd2 : order.Nodup := by
      have : (pending.map Prod.fst).Nodup := hnd
      exact (hperm.nodup_iff).2 (List.Nodup.of_map Prod.fst this)
    have hcount : (order.map PickResult.found).count (PickResult.found e) = 1 := by
      rw [List.count_map_of_injective _ _ (fun a b h => by cases h; rfl)]
      exact List.count_eq_one_of_mem hnd2 (hperm.symm.subset he)
    rw [← pick_range pending order hperm] at hcount
    rw [List.count_eq_countP, List.countP_map, List.countP_eq_length_filter] at hcount
    rw [← hcount]
    congr 1
  · rcases hr with h0 | hr
    · simp [pick, h0]
    · obtain ⟨e, _, hp, _⟩ := pick_found pending order hperm r hr
      rw [hp]; simp

/-- Concrete case of C10: with two pending peers enumerated as B, A, draw 1 picks
B's entry and draw 2 picks A's. -/
theorem pick_uniform_witness :
    pick [(1, ⟨peerA, backlog3⟩), (2, ⟨peerB, backlog3⟩)]
        [(2, ⟨peerB, backlog3⟩), (1, ⟨peerA, backlog3⟩)] 0 ≠ PickResult.fellThrough ∧
    pick [(1, ⟨peerA, backlog3⟩), (2, ⟨peerB, backlog3⟩)]
        [(2, ⟨peerB, backlog3⟩), (1, ⟨peerA, backlog3⟩)] 1 ≠ PickResult.fellThrough :=
  ⟨(pick_uniform [(1, ⟨peerA, backlog3⟩), (2, ⟨peerB, backlog3⟩)]
      [(2, ⟨peerB, backlog3⟩), (1, ⟨peerA, backlog3⟩)]
      (List.Perm.swap _ _ _)).2.2.2.2 0 (Or.inr (by decide)),
   (pick_uniform [(1, ⟨peerA, backlog3⟩), (2, ⟨peerB, backlog3⟩)]
      [(2, ⟨peerB, backlog3⟩), (1, ⟨peerA, backlog3⟩)]
      (List.Perm.swap _ _ _)).2.2.2.2 1 (Or.inr (by decide))⟩

end Eth

/-! ## The loop invariant -/

namespace Eth

theorem mem_mapSet (m : Pending) (k : NodeID) (v : txsync) (e : NodeID × txsync)
    (h : e ∈ mapSet m k v) : (e ∈ m ∧ e.1 ≠ k) ∨ e = (k, v) := by
  simp only [mapSet, List.mem_append, List.mem_singleton] at h
  rcases h with h | h
  · exact Or.inl ((mem_mapDelete m k e).1 h)
  · exact Or.inr h

/-- The map after `send`, spelled out. -/
theorem send_pending (st : LoopState) (k : NodeID) (s : txsync) :
    (send st k s).pending =
      if (remaining s.txs).length = 0
      then mapDelete (mapMutate st.pending k ⟨s.p, remaining s.txs⟩) s.p.ID
      else mapMutate st.pending k ⟨s.p, remaining s.txs⟩ := rfl

theorem send_fields (st : LoopState) (k : NodeID) (s : txsync) :
    (send st k s).sending = true ∧ (send st k s).pack = some ⟨s.p, packTxs s.txs⟩ ∧
    (send st k s).inflight = st.inflight + 1 ∧
    (send st k s).sent = st.sent ++ [⟨s.p, packTxs s.txs⟩] ∧
    (send st k s).stopped = st.stopped :=
  ⟨rfl, rfl, rfl, rfl, rfl⟩

/-- Reading the map after `send` at a key other than the one sent from. -/
theorem send_get_ne (st : LoopState) (k j : NodeID) (s : txsync) (hs : s.p.ID = k)
    (hj : j ≠ k) : mapGet (send st k s).pending j = mapGet st.pending j := by
  rw [send_pending]
  split_ifs
  · rw [hs, mapGet_mapDelete_ne _ _ _ hj, mapGet_mapMutate_ne _ _ _ _ hj]
  · rw [mapGet_mapMutate_ne _ _ _ _ hj]

/-- Reading the map after `send` at the key sent from: the entry holds what is
left of the backlog, and is gone when nothing is left. -/
theorem send_get_self (st : LoopState) (k : NodeID) (s : txsync) (hs : s.p.ID = k)
    (hget : mapGet st.pending k = some s) :
    mapGet (send st k s).pending k =
      if (remaining s.txs).length = 0 then none else some ⟨s.p, remaining s.txs⟩ := by
  rw [send_pending]
  split_ifs
  · rw [hs, mapGet_mapDelete_self]
  · rw [mapGet_mapMutate_self, hget]; rfl

theorem send_inv (st : LoopState) (k : NodeID) (s : txsync)
    (hn : (st.pending.map Prod.fst).Nodup) (hk : ∀ e ∈ st.pending, e.2.p.ID = e.1)
    (hf : st.inflight = 0) (hs : s.p.ID = k) : Inv (send st k s) := by
  have hn1 : ((mapMutate st.pending k ⟨s.p, remaining s.txs⟩).map Prod.fst).Nodup := by
    rw [keys_mapMutate]; exact hn
  have hk1 : ∀ e ∈ mapMutate st.pending k ⟨s.p, remaining s.txs⟩, e.2.p.ID = e.1 := by
    intro e he
    rcases mem_mapMutate _ _ _ _ he with h | h
    · exact hk e h
    · rw [h]; exact hs
  refine ⟨?_, ?_, ?_, ?_⟩
  · rw [send_pending]
    split_ifs
    · exact nodup_keys_mapDelete _ _ hn1
    · exact hn1
  · rw [send_pending]
    split_ifs
    · intro e he
      exact hk1 e ((mem_mapDelete _ _ _).1 he).1
    · exact hk1
  · simp [send, hf]
  · intro _; simp [send]

theorem onTxsync_inv (st : LoopState) (s : txsync) (h : Inv st) : Inv (onTxsync st s) := by
  have hn : ((register st s).pending.map Prod.fst).Nodup :=
    nodup_keys_mapSet _ _ _ h.nodup
  have hk : ∀ e ∈ (register st s).pending, e.2.p.ID = e.1 := by
    intro e he
    rcases mem_mapSet _ _ _ _ he with h1 | h1
    · exact h.keyed e h1.1
    · rw [h1]
  unfold onTxsync
  by_cases hs : st.sending = true
  · have : (register st s).sending = true := hs
    simp only [this, Bool.not_true, Bool.false_eq_true, if_false]
    exact ⟨hn, hk, h.flight, h.packed⟩
  · have hs2 : (register st s).sending = false := by simpa using hs
    simp only [hs2, Bool.not_false, if_true]
    refine send_inv _ _ _ hn hk ?_ rfl
    have := h.flight
    simp only [Bool.not_eq_true] at hs
    rw [hs] at this
    simpa using this

/-- State after lines 112-117 when the loop takes a send result. -/
theorem completeSend_spec (st : LoopState) (err : Option String) (h : Inv st)
    (hfl : st.inflight ≠ 0) :
    ∃ pk st2, st.pack = some pk ∧ completeSend st err = some st2 ∧
      st2.pending = (if err = none then st.pending else mapDelete st.pending pk.p.ID) ∧
      st2.sending = false ∧ st2.inflight = 0 ∧ st2.sent = st.sent ∧
      st2.stopped = st.stopped ∧ st2.pack = st.pack := by
  have hs : st.sending = true := by
    by_contra hc
    have := h.flight
    simp only [Bool.not_eq_true] at hc
    rw [hc] at this
    exact hfl (by simpa using this)
  have hfl1 : st.inflight = 1 := by
    have := h.flight
    rw [hs] at this
    simpa using this
  have hp := h.packed hs
  cases hpk : st.pack with
  | none => exact absurd hpk hp
  | some pk =>
    cases err with
    | none =>
      exact ⟨pk, _, rfl, rfl, by simp, rfl, by simp [hfl1], rfl, rfl, hpk⟩
    | some msg =>
      refine ⟨pk, ⟨mapDelete st.pending pk.p.ID, false, st.pack, st.inflight - 1, st.sent,
        st.stopped⟩, rfl, ?_, by simp, rfl, by simp [hfl1], rfl, rfl, hpk⟩
      simp [completeSend, hpk]

theorem validChoice_spec (m : Pending) (order : List (NodeID × txsync)) (r : Nat)
    (h : validChoice m order r = true) :
    order.Perm m ∧ (m.length = 0 ∨ r < m.length) := by
  simp only [validChoice, Bool.and_eq_true, Bool.or_eq_true, decide_eq_true_eq] at h
  exact ⟨h.1, h.2⟩

/-- What `schedule` does: nothing on an empty map, otherwise one `send` from an
entry of the map. -/
theorem schedule_spec (st : LoopState) (order : List (NodeID × txsync)) (r : Nat)
    (h : validChoice st.pending order r = true) :
    (st.pending = [] ∧ schedule st order r = st) ∨
    (∃ e, e ∈ st.pending ∧ schedule st order r = send st e.1 e.2) := by
  obtain ⟨hperm, hr⟩ := validChoice_spec _ _ _ h
  by_cases hnil : st.pending = []
  · left
    refine ⟨hnil, ?_⟩
    simp [schedule, pick, hnil]
  · right
    have hpos : 0 < st.pending.length := List.length_pos.2 hnil
    obtain ⟨e, _, hp, hmem⟩ := pick_found st.pending order hperm r (by omega)
    exact ⟨e, hmem, by simp [schedule, hp]⟩

theorem step_inv (st st1 : LoopState) (e : Event) (h : Inv st) (hstep : step st e = some st1) :
    Inv st1 := by
  cases e with
  | txsync s =>
    simp only [step] at hstep
    split_ifs at hstep
    cases hstep
    exact onTxsync_inv st s h
  | done err order r =>
    simp only [step] at hstep
    split_ifs at hstep with hc
    have hfl : st.inflight ≠ 0 := by
      intro h0; apply hc; simp [h0]
    obtain ⟨pk, st2, _, hcs, hpend, hsend, hinf, _, _, hpack⟩ := completeSend_spec st err h hfl
    rw [hcs] at hstep
    simp only at hstep
    split_ifs at hstep with hv
    cases hstep
    have hn2 : (st2.pending.map Prod.fst).Nodup := by
      rw [hpend]; split_ifs
      · exact h.nodup
      · exact nodup_keys_mapDelete _ _ h.nodup
    have hk2 : ∀ e ∈ st2.pending, e.2.p.ID = e.1 := by
      rw [hpend]; split_ifs
      · exact h.keyed
      · intro e he; exact h.keyed e ((mem_mapDelete _ _ _).1 he).1
    rcases schedule_spec st2 order r hv with ⟨_, hs⟩ | ⟨e, he, hs⟩
    · rw [hs]
      exact ⟨hn2, hk2, by simp [hsend, hinf], fun hx => by rw [hsend] at hx; cases hx⟩
    · rw [hs]
      exact send_inv st2 e.1 e.2 hn2 hk2 hinf (hk2 e he)
  | quit =>
    simp only [step] at hstep
    split_ifs at hstep
    cases hstep
    exact ⟨h.nodup, h.keyed, h.flight, h.packed⟩

theorem run_inv (es : List Event) :
    ∀ st st1 : LoopState, Inv st → run st es = some st1 → Inv st1 := by
  induction es with
  | nil => intro st st1 h hr; simp only [run] at hr; cases hr; exact h
  | cons e es ih =>
    intro st st1 h hr
    simp only [run] at hr
    cases hs : step st e with
    | none => rw [hs] at hr; cases hr
    | some st2 =>
      rw [hs] at hr
      exact ih st2 st1 (step_inv st st2 e h hs) hr

theorem init_inv : Inv LoopState.init :=
  ⟨by simp [LoopState.init], by simp [LoopState.init], rfl, by simp [LoopState.init]⟩

theorem reachable_inv (st : LoopState) (h : Reachable st) : Inv st := by
  obtain ⟨es, hes⟩ := h
  exact run_inv es _ _ init_inv hes

end Eth

/-! ## One send in flight -/

namespace Eth

theorem onTxsync_of_sending (st : LoopState) (s : txsync) (h : st.sending = true) :
    onTxsync st s = register st s := by
  have : (register st s).sending = true := h
  simp [onTxsync, this]

theorem onTxsync_of_idle (st : LoopState) (s : txsync) (h : st.sending = false) :
    onTxsync st s = send (register st s) s.p.ID s := by
  have : (register st s).sending = false := h
  simp [onTxsync, this]

/-- What a single iteration does to the list of started sends: the list is
kept, or one `send` is issued from a state in which `sending` is clear and no
send result is outstanding. -/
theorem step_sends (st st1 : LoopState) (e : Event) (h : Inv st)
    (hstep : step st e = some st1) :
    (st1.sent = st.sent ∧ st1.inflight ≤ st.inflight) ∨
    (∃ mid k s, mid.sending = false ∧ mid.inflight = 0 ∧ mid.sent = st.sent ∧
      st1 = send mid k s ∧
      ((∃ s0, e = Event.txsync s0 ∧ st.sending = false ∧ mid = register st s0) ∨
       (∃ err order r, e = Event.done err order r ∧ st.sending = true ∧
          completeSend st err = some mid))) := by
  cases e with
  | txsync s =>
    simp only [step] at hstep
    split_ifs at hstep
    cases hstep
    by_cases hs : st.sending = true
    · left
      rw [onTxsync_of_sending st s hs]
      exact ⟨rfl, Nat.le_refl _⟩
    · right
      simp only [Bool.not_eq_true] at hs
      have hs2 : (register st s).sending = false := hs
      have hfl : st.inflight = 0 := by
        have := h.flight
        rw [hs] at this
        simpa using this
      exact ⟨register st s, s.p.ID, s, hs2, hfl, rfl, onTxsync_of_idle st s hs,
        Or.inl ⟨s, rfl, hs, rfl⟩⟩
  | done err order r =>
    simp only [step] at hstep
    split_ifs at hstep with hc
    have hfl : st.inflight ≠ 0 := by
      intro h0; apply hc; simp [h0]
    have hs : st.sending = true := by
      by_contra hc2
      have := h.flight
      simp only [Bool.not_eq_true] at hc2
      rw [hc2] at this
      exact hfl (by simpa using this)
    obtain ⟨pk, st2, _, hcs, _, hsend, hinf, hsent, _, _⟩ := completeSend_spec st err h hfl
    rw [hcs] at hstep
    simp only at hstep
    split_ifs at hstep with hv
    cases hstep
    rcases schedule_spec st2 order r hv with ⟨_, hsch⟩ | ⟨e, _, hsch⟩
    · left
      rw [hsch, hsent, hinf]
      exact ⟨rfl, Nat.zero_le _⟩
    · right
      exact ⟨st2, e.1, e.2, hsend, hinf, hsent, hsch, Or.inr ⟨err, order, r, rfl, hs, hcs⟩⟩
  | quit =>
    simp only [step] at hstep
    split_ifs at hstep
    cases hstep
    left
    exact ⟨rfl, Nat.le_refl _⟩

/-- C9: in every reachable state of the loop at most one send is in flight. The
number of started sends whose result the loop has not yet taken is at most 1
and is 1 exactly while `sending` is set; an iteration starts at most one send,
and only from a state in which `sending` is clear; while a send is in flight
the only iteration that starts the next one is the one that takes the result
of the previous send from `done`; a registration starts a send only when none
is in flight; after `quit` nothing happens. -/
theorem single_flight (st : LoopState) (h : Reachable st) :
    st.inflight ≤ 1 ∧
    (st.sending = true ↔ st.inflight = 1) ∧
    (∀ (e : Event) (st1 : LoopState), step st e = some st1 →
      (st1.sent = st.sent ∨
        ∃ mid k s, mid.sending = false ∧ mid.inflight = 0 ∧ st1 = send mid k s ∧
          st1.sent = st.sent ++ [⟨s.p, packTxs s.txs⟩]) ∧
      (st1.sent ≠ st.sent → st.sending = true →
        ∃ err order r, e = Event.done err order r) ∧
      (st1.sent ≠ st.sent → st.sending = false → ∃ s, e = Event.txsync s) ∧
      (st1.sent ≠ st.sent → st1.sending = true ∧ st1.inflight = 1)) ∧
    (∀ (err : Option String) (order : List (NodeID × txsync)) (r : Nat),
      st.sending = false → step st (Event.done err order r) = none) ∧
    (st.stopped = true → ∀ e, step st e = none) := by
  have hinv := reachable_inv st h
  have hfl := hinv.flight
  refine ⟨?_, ?_, ?_, ?_, ?_⟩
  · rw [hfl]; split_ifs <;> omega
  · rw [hfl]; cases st.sending <;> simp
  · intro e st1 hstep
    have hinv1 := step_inv st st1 e hinv hstep
    rcases step_sends st st1 e hinv hstep with ⟨hsame, _⟩ | ⟨mid, k, s, hm1, hm2, hm3, hst1, horigin⟩
    · exact ⟨Or.inl hsame, fun hne => absurd hsame hne, fun hne => absurd hsame hne,
        fun hne => absurd hsame hne⟩
    · have hsent : st1.sent = st.sent ++ [⟨s.p, packTxs s.txs⟩] := by
        rw [hst1, (send_fields mid k s).2.2.2.1, hm3]
      refine ⟨Or.inr ⟨mid, k, s, hm1, hm2, hst1, hsent⟩, fun _ hs => ?_, fun _ hs => ?_,
        fun _ => ?_⟩
      · rcases horigin with ⟨s0, _, hs0, _⟩ | ⟨err, order, r, he, _, _⟩
        · rw [hs0] at hs; cases hs
        · exact ⟨err, order, r, he⟩
      · rcases horigin with ⟨s0, he, _, _⟩ | ⟨err, order, r, _, hs1, _⟩
        · exact ⟨s0, he⟩
        · rw [hs1] at hs; cases hs
      · rw [hst1]
        exact ⟨(send_fields mid k s).1, by rw [(send_fields mid k s).2.2.1, hm2]⟩
  · intro err order r hs
    have h0 : st.inflight = 0 := by rw [hfl, hs]; rfl
    simp [step, h0]
  · intro hstop e
    cases e <;> simp [step, hstop]

/-- Concrete case of C9: after one registration on the idle loop a send is in
flight, and a second registration starts no further send. -/
theorem single_flight_witness :
    (onTxsync LoopState.init ⟨peerA, backlog3⟩).inflight ≤ 1 ∧
    ∀ st1, step (onTxsync LoopState.init ⟨peerA, backlog3⟩)
        (Event.txsync ⟨peerB, backlog3⟩) = some st1 →
      st1.sent ≠ (onTxsync LoopState.init ⟨peerA, backlog3⟩).sent →
      (onTxsync LoopState.init ⟨peerA, backlog3⟩).sending = true →
      ∃ err order r, Event.txsync ⟨peerB, backlog3⟩ = Event.done err order r :=
  ⟨(single_flight (onTxsync LoopState.init ⟨peerA, backlog3⟩)
      ⟨[Event.txsync ⟨peerA, backlog3⟩], rfl⟩).1,
   fun st1 hst1 => ((single_flight (onTxsync LoopState.init ⟨peerA, backlog3⟩)
      ⟨[Event.txsync ⟨peerA, backlog3⟩], rfl⟩).2.2.1
      (Event.txsync ⟨peerB, backlog3⟩) st1 hst1).2.1⟩

end Eth

/-! ## Send failures -/

namespace Eth

theorem sentTo_append (k : NodeID) (a b : List txsync) :
    sentTo k (a ++ b) = sentTo k a ++ sentTo k b := by
  simp [sentTo]

theorem sentTo_single_ne (k : NodeID) (pk : txsync) (h : pk.p.ID ≠ k) :
    sentTo k [pk] = [] := by
  simp [sentTo, h]

theorem sentTo_single_eq (k : NodeID) (pk : txsync) (h : pk.p.ID = k) :
    sentTo k [pk] = [pk.txs] := by
  simp [sentTo, h]

/-- Line 107 alone: the new registration is what the map holds for its peer,
whatever was or was not there before, and no other key is affected. -/
theorem register_get (st : LoopState) (s : txsync) :
    mapGet (register st s).pending s.p.ID = some s ∧
    ∀ j, j ≠ s.p.ID → mapGet (register st s).pending j = mapGet st.pending j :=
  ⟨mapGet_mapSet_self _ _ _, fun _ hj => mapGet_mapSet_ne _ _ _ _ hj⟩

/-- C6: when the result of a send to peer P is taken from `done` and it is an
error, P's entry is removed from the pending map, every other peer's entry is
unchanged by the removal, and the same iteration sends nothing more to P (its
backlog is dropped, no retry); when the result is no error the completion removes
no entry. A later registration for P is accepted as for any peer: line 107 makes
the new registration P's entry, leaving other keys alone; the iteration ends with
that entry in place when a send is in flight, and otherwise starts a send from
the new backlog. -/
theorem send_failure_drops_peer (st : LoopState) (h : Reachable st) (hfl : st.inflight ≠ 0) :
    ∃ pk, st.pack = some pk ∧
      (∀ msg, ∃ st2, completeSend st (some msg) = some st2 ∧
        st2.pending = mapDelete st.pending pk.p.ID ∧
        mapGet st2.pending pk.p.ID = none ∧
        ∀ j, j ≠ pk.p.ID → mapGet st2.pending j = mapGet st.pending j) ∧
      (∃ st2, completeSend st none = some st2 ∧ st2.pending = st.pending) ∧
      (∀ msg order r st1, step st (Event.done (some msg) order r) = some st1 →
        mapGet st1.pending pk.p.ID = none ∧
        sentTo pk.p.ID st1.sent = sentTo pk.p.ID st.sent) ∧
      (∀ (later : LoopState) (s : txsync), s.p.ID = pk.p.ID →
        mapGet (register later s).pending pk.p.ID = some s ∧
        (∀ j, j ≠ pk.p.ID → mapGet (register later s).pending j = mapGet later.pending j) ∧
        (later.stopped = false → later.sending = true →
          ∃ st1, step later (Event.txsync s) = some st1 ∧
            mapGet st1.pending pk.p.ID = some s) ∧
        (later.stopped = false → later.sending = false →
          ∃ st1, step later (Event.txsync s) = some st1 ∧
            st1.pack = some ⟨s.p, packTxs s.txs⟩ ∧
            mapGet st1.pending pk.p.ID =
              if (remaining s.txs).length = 0 then none
              else some ⟨s.p, remaining s.txs⟩)) := by
  have hinv := reachable_inv st h
  obtain ⟨pk, st2, hpk, hcs, hpend, hsend, hinf, hsent, _, _⟩ :=
    completeSend_spec st (some "x") hinv hfl
  refine ⟨pk, hpk, fun msg => ?_, ?_, fun msg order r st1 hstep => ?_, fun later s hs => ?_⟩
  · obtain ⟨pk2, st3, hpk2, hcs3, hpend3, _⟩ := completeSend_spec st (some msg) hinv hfl
    have hpkeq : pk2 = pk := by rw [hpk] at hpk2; exact (Option.some.inj hpk2).symm
    subst hpkeq
    have hp3 : st3.pending = mapDelete st.pending pk2.p.ID := by simpa using hpend3
    refine ⟨st3, hcs3, hp3, ?_, fun j hj => ?_⟩
    · rw [hp3, mapGet_mapDelete_self]
    · rw [hp3, mapGet_mapDelete_ne _ _ _ hj]
  · obtain ⟨_, st3, _, hcs3, hpend3, _⟩ := completeSend_spec st none hinv hfl
    exact ⟨st3, hcs3, by simpa using hpend3⟩
  · obtain ⟨pk2, st3, hpk2, hcs3, hpend3, _, hinf3, hsent3, _, _⟩ :=
      completeSend_spec st (some msg) hinv hfl
    have hpkeq : pk2 = pk := by rw [hpk] at hpk2; exact (Option.some.inj hpk2).symm
    subst hpkeq
    have hp3 : st3.pending = mapDelete st.pending pk2.p.ID := by simpa using hpend3
    have hc : ¬ ((st.stopped || decide (st.inflight = 0)) = true) := by
      intro hc
      simp only [step, hc, if_true] at hstep
      cases hstep
    simp only [step, hc, if_false, hcs3, Bool.false_eq_true] at hstep
    split_ifs at hstep with hv
    cases hstep
    rcases schedule_spec st3 order r hv with ⟨_, hsch⟩ | ⟨e, he, hsch⟩
    · rw [hsch, hsent3, hp3, mapGet_mapDelete_self]
      exact ⟨rfl, rfl⟩
    · rw [hp3] at he
      obtain ⟨hmem, hne⟩ := (mem_mapDelete _ _ _).1 he
      have hkey : e.2.p.ID = e.1 := hinv.keyed e hmem
      rw [hsch]
      refine ⟨?_, ?_⟩
      · rw [send_get_ne st3 e.1 pk2.p.ID e.2 hkey (fun hx => hne hx.symm), hp3,
          mapGet_mapDelete_self]
      · rw [(send_fields st3 e.1 e.2).2.2.2.1, sentTo_append, hsent3,
          sentTo_single_ne _ _ (by simpa [hkey] using hne)]
        simp
  · obtain ⟨hg1, hg2⟩ := register_get later s
    rw [hs] at hg1 hg2
    refine ⟨hg1, hg2, fun hstop hsnd => ?_, fun hstop hsnd => ?_⟩
    · refine ⟨register later s, ?_, hg1⟩
      simp [step, hstop, onTxsync_of_sending later s hsnd]
    · refine ⟨send (register later s) s.p.ID s, ?_, rfl, ?_⟩
      · simp [step, hstop, onTxsync_of_idle later s hsnd]
      · rw [← hs]
        exact send_get_self (register later s) s.p.ID s rfl (register_get later s).1

/-- Concrete case of C6: peer A's first pack is in flight with one transaction
still queued; the send fails, and A's entry is gone. -/
theorem send_failure_drops_peer_witness :
    ∃ pk, (onTxsync LoopState.init ⟨peerA, backlog3⟩).pack = some pk ∧
      ∀ msg order r st1,
        step (onTxsync LoopState.init ⟨peerA, backlog3⟩) (Event.done (some msg) order r) =
          some st1 →
        mapGet st1.pending pk.p.ID = none ∧
        sentTo pk.p.ID st1.sent =
          sentTo pk.p.ID (onTxsync LoopState.init ⟨peerA, backlog3⟩).sent :=
  (send_failure_drops_peer (onTxsync LoopState.init ⟨peerA, backlog3⟩)
    ⟨[Event.txsync ⟨peerA, backlog3⟩], rfl⟩ (by decide)).imp
    (fun _ hpk => ⟨hpk.1, hpk.2.2.2.1⟩)

end Eth

/-! ## Draining one peer's backlog -/

namespace Eth

theorem packTxs_append_remaining (txs : List Transaction) :
    packTxs txs ++ remaining txs = txs := by
  rw [remaining_eq_drop]
  conv_lhs => rw [(packTxs_spec txs).2.1]
  rw [List.length_take, Nat.min_eq_left (packTxs_spec txs).1]
  exact List.take_append_drop _ _

/-- Effect on node `k` of a `send` from `k`'s own, non-empty entry: one
non-empty pack goes out and pack plus what stays queued is the old backlog. -/
theorem send_drain_self (st : LoopState) (k : NodeID) (s : txsync) (hs : s.p.ID = k)
    (hget : mapGet st.pending k = some s) (hne : s.txs ≠ []) :
    sentTo k [(⟨s.p, packTxs s.txs⟩ : txsync)] = [packTxs s.txs] ∧
    packTxs s.txs ≠ [] ∧
    packTxs s.txs ++ backlogOf (send st k s).pending k = backlogOf st.pending k ∧
    (∀ v, mapGet (send st k s).pending k = some v → v.txs ≠ []) := by
  have hg := send_get_self st k s hs hget
  refine ⟨sentTo_single_eq _ _ hs, packTxs_ne_nil _ hne, ?_, ?_⟩
  · simp only [backlogOf, hg, hget]
    split_ifs with h0
    · have : remaining s.txs = [] := List.length_eq_zero.1 h0
      rw [← this]; exact packTxs_append_remaining _
    · exact packTxs_append_remaining _
  · intro v hv
    rw [hg] at hv
    split_ifs at hv with h0
    cases hv
    intro hnil
    have hrem : remaining s.txs = [] := hnil
    exact h0 (by rw [hrem]; rfl)

/-- Effect on node `k` of a `send` from another node's entry: none. -/
theorem send_drain_other (st : LoopState) (k j : NodeID) (s : txsync) (hs : s.p.ID = j)
    (hj : j ≠ k) :
    sentTo k [(⟨s.p, packTxs s.txs⟩ : txsync)] = [] ∧
    mapGet (send st j s).pending k = mapGet st.pending k :=
  ⟨sentTo_single_ne _ _ (by rw [hs]; exact hj), send_get_ne st j k s hs (fun h => hj h.symm)⟩

/-- One quiet iteration, seen from node `k`: the packs it sends to `k` are
non-empty, and together with what stays queued for `k` they are what was queued
before. -/
theorem drain_step (k : NodeID) (st st1 : LoopState) (e : Event) (h : Inv st)
    (hne : ∀ v, mapGet st.pending k = some v → v.txs ≠ [])
    (hq : quiet k st e = true) (hstep : step st e = some st1) :
    ∃ ext, st1.sent = st.sent ++ ext ∧
      (∀ pk ∈ sentTo k ext, pk ≠ []) ∧
      (sentTo k ext).flatten ++ backlogOf st1.pending k = backlogOf st.pending k ∧
      (∀ v, mapGet st1.pending k = some v → v.txs ≠ []) := by
  -- a send from a state `mid` whose view of `k` is that of `st`
  have key : ∀ (mid : LoopState) (e0 : NodeID × txsync), mid.sent = st.sent →
      mapGet mid.pending k = mapGet st.pending k → e0 ∈ mid.pending →
      (mid.pending.map Prod.fst).Nodup → (∀ x ∈ mid.pending, x.2.p.ID = x.1) →
      ∃ ext, (send mid e0.1 e0.2).sent = st.sent ++ ext ∧
        (∀ pk ∈ sentTo k ext, pk ≠ []) ∧
        (sentTo k ext).flatten ++ backlogOf (send mid e0.1 e0.2).pending k =
          backlogOf st.pending k ∧
        (∀ v, mapGet (send mid e0.1 e0.2).pending k = some v → v.txs ≠ []) := by
    intro mid e0 hsent hget hmem hnd hkd
    have hkey : e0.2.p.ID = e0.1 := hkd e0 hmem
    refine ⟨[⟨e0.2.p, packTxs e0.2.txs⟩], ?_, ?_⟩
    · rw [(send_fields mid e0.1 e0.2).2.2.2.1, hsent]
    · by_cases hk : e0.1 = k
      · have hg : mapGet mid.pending k = some e0.2 := by
          rw [← hk]; exact mapGet_of_mem _ hnd e0 hmem
        have hne0 : e0.2.txs ≠ [] := hne e0.2 (by rw [← hget]; exact hg)
        obtain ⟨h1, h2, h3, h4⟩ := send_drain_self mid k e0.2 (by rw [hkey, hk]) hg hne0
        rw [hk, h1]
        refine ⟨?_, ?_, h4⟩
        · intro pk hpk
          simp only [List.mem_singleton] at hpk
          rw [hpk]; exact h2
        · simp only [List.flatten_cons, List.flatten_nil, List.append_nil]
          rw [h3]
          simp only [backlogOf, hget]
      · obtain ⟨h1, h2⟩ := send_drain_other mid k e0.1 e0.2 hkey hk
        rw [h1]
        refine ⟨by simp, ?_, ?_⟩
        · simp only [List.flatten_nil, List.nil_append, backlogOf, h2, hget]
        · intro v hv
          rw [h2, hget] at hv
          exact hne v hv
  cases e with
  | txsync s =>
    simp only [step] at hstep
    split_ifs at hstep
    cases hstep
    have hsk : s.p.ID ≠ k := by simpa [quiet] using hq
    have hreg : mapGet (register st s).pending k = mapGet st.pending k :=
      (register_get st s).2 k (fun hx => hsk hx.symm)
    by_cases hs : st.sending = true
    · rw [onTxsync_of_sending st s hs]
      refine ⟨[], by simp [register], by simp [sentTo], ?_, ?_⟩
      · simp [sentTo, backlogOf, hreg]
      · intro v hv; rw [hreg] at hv; exact hne v hv
    · simp only [Bool.not_eq_true] at hs
      rw [onTxsync_of_idle st s hs]
      have hinv1 : (register st s).pending.map Prod.fst |>.Nodup :=
        nodup_keys_mapSet _ _ _ h.nodup
      have hkd1 : ∀ x ∈ (register st s).pending, x.2.p.ID = x.1 := by
        intro x hx
        rcases mem_mapSet _ _ _ _ hx with h1 | h1
        · exact h.keyed x h1.1
        · rw [h1]
      have hmem : (s.p.ID, s) ∈ (register st s).pending :=
        mem_of_mapGet _ _ _ (register_get st s).1
      exact key (register st s) (s.p.ID, s) rfl hreg hmem hinv1 hkd1
  | done err order r =>
    simp only [step] at hstep
    split_ifs at hstep with hc
    have hfl : st.inflight ≠ 0 := by
      intro h0; apply hc; simp [h0]
    obtain ⟨pk, st2, hpk, hcs, hpend, _, _, hsent, _, _⟩ := completeSend_spec st err h hfl
    rw [hcs] at hstep
    simp only at hstep
    split_ifs at hstep with hv
    cases hstep
    have hget2 : mapGet st2.pending k = mapGet st.pending k := by
      rw [hpend]
      cases err with
      | none => simp
      | some msg =>
        have hpk2 : pk.p.ID ≠ k := by
          simpa [quiet, hpk] using hq
        simp only [reduceCtorEq, if_false]
        exact mapGet_mapDelete_ne _ _ _ (fun hx => hpk2 hx.symm)
    have hn2 : (st2.pending.map Prod.fst).Nodup := by
      rw [hpend]; split_ifs
      · exact h.nodup
      · exact nodup_keys_mapDelete _ _ h.nodup
    have hk2 : ∀ x ∈ st2.pending, x.2.p.ID = x.1 := by
      rw [hpend]; split_ifs
      · exact h.keyed
      · intro x hx; exact h.keyed x ((mem_mapDelete _ _ _).1 hx).1
    rcases schedule_spec st2 order r hv with ⟨_, hsch⟩ | ⟨e0, he0, hsch⟩
    · rw [hsch]
      refine ⟨[], by simp [hsent], by simp [sentTo], ?_, ?_⟩
      · simp [sentTo, backlogOf, hget2]
      · intro v hv2; rw [hget2] at hv2; exact hne v hv2
    · rw [hsch]
      exact key st2 e0 hsent hget2 he0 hn2 hk2
  | quit =>
    simp only [step] at hstep
    split_ifs at hstep
    cases hstep
    exact ⟨[], by simp, by simp [sentTo], by simp [sentTo], hne⟩

/-- Any quiet run, seen from node `k`. -/
theorem drain_run (k : NodeID) (es : List Event) :
    ∀ st st1 : LoopState, Inv st → (∀ v, mapGet st.pending k = some v → v.txs ≠ []) →
      undisturbed k st es = true → run st es = some st1 →
      ∃ ext, st1.sent = st.sent ++ ext ∧
        (∀ pk ∈ sentTo k ext, pk ≠ []) ∧
        (sentTo k ext).flatten ++ backlogOf st1.pending k = backlogOf st.pending k ∧
        (∀ v, mapGet st1.pending k = some v → v.txs ≠ []) := by
  induction es with
  | nil =>
    intro st st1 _ hne _ hrun
    simp only [run] at hrun
    cases hrun
    exact ⟨[], by simp, by simp [sentTo], by simp [sentTo], hne⟩
  | cons e es ih =>
    intro st st1 hinv hne hq hrun
    simp only [run] at hrun
    cases hs : step st e with
    | none => rw [hs] at hrun; cases hrun
    | some st2 =>
      rw [hs] at hrun
      simp only [undisturbed, hs, Bool.and_eq_true] at hq
      obtain ⟨x1, a1, b1, c1, d1⟩ := drain_step k st st2 e hinv hne hq.1 hs
      obtain ⟨x2, a2, b2, c2, d2⟩ := ih st2 st1 (step_inv st st2 e hinv hs) d1 hq.2 hrun
      refine ⟨x1 ++ x2, by rw [a2, a1, List.append_assoc], ?_, ?_, d2⟩
      · intro pk hpk
        rw [sentTo_append, List.mem_append] at hpk
        rcases hpk with hpk | hpk
        · exact b1 pk hpk
        · exact b2 pk hpk
      · rw [sentTo_append, List.flatten_append, List.append_assoc, c2, c1]

/-- A list of non-empty lists has no more members than elements. -/
theorem length_le_length_flatten (L : List (List Transaction)) (h : ∀ l ∈ L, l ≠ []) :
    L.length ≤ L.flatten.length := by
  induction L with
  | nil => simp
  | cons l L ih =>
    have hl : 0 < l.length := List.length_pos.2 (h l (List.mem_cons_self _ _))
    have := ih (fun x hx => h x (List.mem_cons_of_mem _ hx))
    simp only [List.flatten_cons, List.length_append, List.length_cons]
    omega

/-- What holds at every point of a quiet run after a registration: the packs
sent to the peer since then are non-empty and, followed by what is still
queued for it, are the registered backlog. -/
theorem drain_safety (st0 : LoopState) (h0 : Reachable st0) (s : txsync) (hs : s.txs ≠ [])
    (st1 : LoopState) (hreg : step st0 (Event.txsync s) = some st1)
    (es : List Event) (st2 : LoopState) (hrun : run st1 es = some st2)
    (hq : undisturbed s.p.ID st1 es = true) :
    ∃ ext, st2.sent = st0.sent ++ ext ∧
      (∀ pk ∈ sentTo s.p.ID ext, pk ≠ []) ∧
      (sentTo s.p.ID ext).flatten ++ backlogOf st2.pending s.p.ID = s.txs ∧
      (mapGet st2.pending s.p.ID = none ↔ (sentTo s.p.ID ext).flatten = s.txs) ∧
      (sentTo s.p.ID ext).length ≤ s.txs.length := by
  have hinv0 := reachable_inv st0 h0
  have hinv1 := step_inv st0 st1 _ hinv0 hreg
  -- the registration itself
  have hfirst : ∃ ext, st1.sent = st0.sent ++ ext ∧
      (∀ pk ∈ sentTo s.p.ID ext, pk ≠ []) ∧
      (sentTo s.p.ID ext).flatten ++ backlogOf st1.pending s.p.ID = s.txs ∧
      (∀ v, mapGet st1.pending s.p.ID = some v → v.txs ≠ []) := by
    simp only [step] at hreg
    split_ifs at hreg
    cases hreg
    have hg := (register_get st0 s).1
    by_cases hsend : st0.sending = true
    · rw [onTxsync_of_sending st0 s hsend]
      refine ⟨[], by simp [register], by simp [sentTo], by simp [sentTo, backlogOf, hg], ?_⟩
      intro v hv
      rw [hg] at hv
      cases hv
      exact hs
    · simp only [Bool.not_eq_true] at hsend
      rw [onTxsync_of_idle st0 s hsend]
      obtain ⟨h1, h2, h3, h4⟩ := send_drain_self (register st0 s) s.p.ID s rfl hg hs
      refine ⟨[⟨s.p, packTxs s.txs⟩], by rw [(send_fields _ _ _).2.2.2.1]; rfl, ?_, ?_, h4⟩
      · intro pk hpk
        rw [h1] at hpk
        simp only [List.mem_singleton] at hpk
        rw [hpk]; exact h2
      · rw [h1]
        simp only [List.flatten_cons, List.flatten_nil, List.append_nil]
        rw [h3]
        simp [backlogOf, hg]
  obtain ⟨x1, a1, b1, c1, d1⟩ := hfirst
  obtain ⟨x2, a2, b2, c2, d2⟩ := drain_run s.p.ID es st1 st2 hinv1 d1 hq hrun
  have hall : ∀ pk ∈ sentTo s.p.ID (x1 ++ x2), pk ≠ [] := by
    intro pk hpk
    rw [sentTo_append, List.mem_append] at hpk
    rcases hpk with hpk | hpk
    · exact b1 pk hpk
    · exact b2 pk hpk
  have hsum : (sentTo s.p.ID (x1 ++ x2)).flatten ++ backlogOf st2.pending s.p.ID = s.txs := by
    rw [sentTo_append, List.flatten_append, List.append_assoc, c2, c1]
  refine ⟨x1 ++ x2, by rw [a2, a1, List.append_assoc], hall, hsum, ?_, ?_⟩
  · constructor
    · intro hnone
      have : backlogOf st2.pending s.p.ID = [] := by simp [backlogOf, hnone]
      rw [this, List.append_nil] at hsum
      exact hsum
    · intro hfull
      cases hv : mapGet st2.pending s.p.ID with
      | none => rfl
      | some v =>
        exfalso
        have hb : backlogOf st2.pending s.p.ID = v.txs := by simp [backlogOf, hv]
        rw [hb, hfull] at hsum
        have : v.txs = [] := by
          have := congrArg List.length hsum
          simp only [List.length_append] at this
          exact List.length_eq_zero.1 (by omega)
        exact d2 v hv this
  · have h1 := length_le_length_flatten _ hall
    have h2 := congrArg List.length hsum
    simp only [List.length_append] at h2
    omega

/-- While the loop is idle the pending map is empty: a state with an entry has
a send in flight. -/
theorem step_idle (st st1 : LoopState) (e : Event) (h : Inv st)
    (hidle : st.sending = false → st.pending = []) (hstep : step st e = some st1) :
    st1.sending = false → st1.pending = [] := by
  cases e with
  | txsync s =>
    simp only [step] at hstep
    split_ifs at hstep
    cases hstep
    by_cases hs : st.sending = true
    · rw [onTxsync_of_sending st s hs]
      intro h1
      have : st.sending = false := h1
      rw [hs] at this
      cases this
    · simp only [Bool.not_eq_true] at hs
      rw [onTxsync_of_idle st s hs, (send_fields _ _ _).1]
      intro h1
      cases h1
  | done err order r =>
    simp only [step] at hstep
    split_ifs at hstep with hc
    have hfl : st.inflight ≠ 0 := by
      intro h0; apply hc; simp [h0]
    obtain ⟨pk, st2, _, hcs, _, _, _, _, _, _⟩ := completeSend_spec st err h hfl
    rw [hcs] at hstep
    simp only at hstep
    split_ifs at hstep with hv
    cases hstep
    rcases schedule_spec st2 order r hv with ⟨hnil, hsch⟩ | ⟨e0, _, hsch⟩
    · rw [hsch]; exact fun _ => hnil
    · rw [hsch, (send_fields _ _ _).1]
      intro h1
      cases h1
  | quit =>
    simp only [step] at hstep
    split_ifs at hstep
    cases hstep
    exact hidle

theorem run_idle (es : List Event) :
    ∀ st st1 : LoopState, Inv st → (st.sending = false → st.pending = []) →
      run st es = some st1 → (st1.sending = false → st1.pending = []) := by
  induction es with
  | nil =>
    intro st st1 _ hidle hrun
    simp only [run] at hrun
    cases hrun
    exact hidle
  | cons e es ih =>
    intro st st1 hinv hidle hrun
    simp only [run] at hrun
    cases hs : step st e with
    | none => rw [hs] at hrun; cases hrun
    | some st2 =>
      rw [hs] at hrun
      exact ih st2 st1 (step_inv st st2 e hinv hs) (step_idle st st2 e hinv hidle hs) hrun

theorem run_append (es1 : List Event) :
    ∀ (st st1 : LoopState) (es2 : List Event), run st es1 = some st1 →
      run st (es1 ++ es2) = run st1 es2 := by
  induction es1 with
  | nil =>
    intro st st1 es2 h
    simp only [run] at h
    cases h
    rfl
  | cons e es ih =>
    intro st st1 es2 h
    simp only [run, List.cons_append] at h ⊢
    cases hs : step st e with
    | none => rw [hs] at h; cases h
    | some st2 =>
      rw [hs] at h
      exact ih st2 st1 es2 h

/-- An entry found by `pick` is an entry of the map. -/
theorem pick_found_mem (pending : Pending) (order : List (NodeID × txsync)) (r : Nat)
    (e : NodeID × txsync) (hperm : order.Perm pending)
    (hpick : pick pending order r = PickResult.found e) : e ∈ pending := by
  unfold pick at hpick
  split_ifs at hpick
  rw [pickLoop_eq_getElem?] at hpick
  cases hget : order[r]? with
  | none => rw [hget] at hpick; cases hpick
  | some e1 =>
    rw [hget] at hpick
    cases hpick
    exact hperm.subset (List.getElem?_mem hget)

/-- Progress: when the loop takes a send result and `pick` returns the entry of
node `k`, the iteration sends a non-empty pack from the front of `k`'s queue,
the queue gets shorter by that pack, and the entry is deleted exactly when the
pack takes the whole queue. -/
theorem serve_step (k : NodeID) (st mid : LoopState) (err : Option String)
    (order : List (NodeID × txsync)) (r : Nat) (v : txsync) (h : Inv st)
    (hstop : st.stopped = false) (hfl : st.inflight ≠ 0)
    (hne : ∀ w, mapGet st.pending k = some w → w.txs ≠ [])
    (hcs : completeSend st err = some mid) (hv : validChoice mid.pending order r = true)
    (hpick : pick mid.pending order r = PickResult.found (k, v)) :
    step st (Event.done err order r) = some (send mid k v) ∧
    (send mid k v).sent = st.sent ++ [⟨v.p, packTxs v.txs⟩] ∧
    v.p.ID = k ∧
    packTxs v.txs ≠ [] ∧
    v.txs = backlogOf st.pending k ∧
    backlogOf (send mid k v).pending k = remaining v.txs ∧
    packTxs v.txs ++ remaining v.txs = v.txs ∧
    (backlogOf (send mid k v).pending k).length < (backlogOf st.pending k).length ∧
    (mapGet (send mid k v).pending k = none ↔ packTxs v.txs = v.txs) ∧
    (∀ w, mapGet (send mid k v).pending k = some w → w.txs ≠ []) := by
  obtain ⟨hperm, _⟩ := validChoice_spec _ _ _ hv
  have hmem : (k, v) ∈ mid.pending := pick_found_mem _ _ _ _ hperm hpick
  obtain ⟨pk, st2, _, hcs2, hpend, _, _, hsent, _, _⟩ := completeSend_spec st err h hfl
  rw [hcs] at hcs2
  cases hcs2
  have hsub : ∀ x ∈ mid.pending, x ∈ st.pending := by
    rw [hpend]; split_ifs
    · exact fun x hx => hx
    · exact fun x hx => ((mem_mapDelete _ _ _).1 hx).1
  have hnd : (mid.pending.map Prod.fst).Nodup := by
    rw [hpend]; split_ifs
    · exact h.nodup
    · exact nodup_keys_mapDelete _ _ h.nodup
  have hkey : v.p.ID = k := h.keyed (k, v) (hsub _ hmem)
  have hgmid : mapGet mid.pending k = some v := mapGet_of_mem _ hnd (k, v) hmem
  have hgst : mapGet st.pending k = some v := mapGet_of_mem _ h.nodup (k, v) (hsub _ hmem)
  have hvne : v.txs ≠ [] := hne v hgst
  have hstep : step st (Event.done err order r) = some (send mid k v) := by
    have hc : ¬ ((st.stopped || decide (st.inflight = 0)) = true) := by
      simp [hstop, hfl]
    simp only [step, hc, if_false, hcs, hv, if_true, Bool.false_eq_true]
    simp [schedule, hpick]
  have hself := send_get_self mid k v hkey hgmid
  have hsplit := packTxs_append_remaining v.txs
  have hpne := packTxs_ne_nil v.txs hvne
  have hback : backlogOf (send mid k v).pending k = remaining v.txs := by
    simp only [backlogOf, hself]
    split_ifs with h0
    · exact (List.length_eq_zero.1 h0).symm
    · rfl
  have hbst : backlogOf st.pending k = v.txs := by simp [backlogOf, hgst]
  have hlen : (packTxs v.txs).length + (remaining v.txs).length = v.txs.length := by
    rw [← List.length_append, hsplit]
  have hplen : 0 < (packTxs v.txs).length := List.length_pos.2 hpne
  refine ⟨hstep, by rw [(send_fields mid k v).2.2.2.1, hsent], hkey, hpne, hbst.symm, hback,
    hsplit, by rw [hback, hbst]; omega, ?_, ?_⟩
  · rw [hself]
    constructor
    · intro hnone
      split_ifs at hnone with h0
      have hrem : remaining v.txs = [] := List.length_eq_zero.1 h0
      rw [hrem, List.append_nil] at hsplit
      exact hsplit
    · intro hall
      have h0 : (remaining v.txs).length = 0 := by
        rw [hall] at hlen; omega
      rw [if_pos h0]
  · intro w hw
    rw [hself] at hw
    split_ifs at hw with h0
    cases hw
    intro hnil
    have hrem : remaining v.txs = [] := hnil
    exact h0 (by rw [hrem]; rfl)

/-- Completion: from a state with a send in flight there is a quiet run of at
most `len(queue)` iterations, each taking a send result without error and
picking node `k`, after which `k` has no entry and the packs sent to `k` along
the run are, in order, its queue. -/
theorem drain_completes (k : NodeID) :
    ∀ (n : Nat) (st : LoopState), Inv st → st.stopped = false → st.inflight ≠ 0 →
      (∀ w, mapGet st.pending k = some w → w.txs ≠ []) →
      (backlogOf st.pending k).length ≤ n →
      ∃ es st3 ext, es.length ≤ (backlogOf st.pending k).length ∧
        undisturbed k st es = true ∧ run st es = some st3 ∧
        mapGet st3.pending k = none ∧ st3.sent = st.sent ++ ext ∧
        (sentTo k ext).flatten = backlogOf st.pending k ∧
        (sentTo k ext).length = es.length ∧
        (∀ pk ∈ sentTo k ext, pk ≠ []) := by
  intro n
  induction n with
  | zero =>
    intro st _ _ _ hne hlen
    have hb : backlogOf st.pending k = [] := List.length_eq_zero.1 (Nat.le_zero.1 hlen)
    have hnone : mapGet st.pending k = none := by
      cases hg : mapGet st.pending k with
      | none => rfl
      | some w =>
        exfalso
        apply hne w hg
        simpa [backlogOf, hg] using hb
    exact ⟨[], st, [], by simp, rfl, rfl, hnone, by simp, by simp [sentTo, hb],
      by simp [sentTo], by simp [sentTo]⟩
  | succ n ih =>
    intro st hinv hstop hfl hne hlen
    cases hg : mapGet st.pending k with
    | none =>
      have hb : backlogOf st.pending k = [] := by simp [backlogOf, hg]
      exact ⟨[], st, [], by simp, rfl, rfl, hg, by simp, by simp [sentTo, hb],
        by simp [sentTo], by simp [sentTo]⟩
    | some v =>
      have hmem : (k, v) ∈ st.pending := mem_of_mapGet _ _ _ hg
      obtain ⟨r, hr, hget⟩ := List.getElem_of_mem hmem
      -- the send in flight completes without error and `pick` draws `k`
      obtain ⟨_, mid, _, hcs, hpend, _, _, _, hmstop, _⟩ := completeSend_spec st none hinv hfl
      have hpm : mid.pending = st.pending := by simpa using hpend
      have hv : validChoice mid.pending st.pending r = true := by
        rw [hpm]
        simp [validChoice, hr]
      have hpick : pick mid.pending st.pending r = PickResult.found (k, v) := by
        have h0 : ¬ mid.pending.length = 0 := by rw [hpm]; omega
        simp only [pick, if_neg h0, pickLoop_eq_getElem?, List.getElem?_eq_getElem hr, hget]
      obtain ⟨hstep, hsent, hkey, hpne, hvb, hback, hsplit, hshort, _, hne1⟩ :=
        serve_step k st mid none st.pending r v hinv hstop hfl hne hcs hv hpick
      have hinv1 := step_inv st _ _ hinv hstep
      have hstop1 : (send mid k v).stopped = false := by
        rw [(send_fields mid k v).2.2.2.2, hmstop, hstop]
      have hfl1 : (send mid k v).inflight ≠ 0 := by
        rw [(send_fields mid k v).2.2.1]; omega
      obtain ⟨es, st3, ext, a1, a2, a3, a4, a5, a6, a7, a8⟩ :=
        ih (send mid k v) hinv1 hstop1 hfl1 hne1 (by omega)
      have hone : sentTo k [(⟨v.p, packTxs v.txs⟩ : txsync)] = [packTxs v.txs] :=
        sentTo_single_eq k ⟨v.p, packTxs v.txs⟩ hkey
      refine ⟨Event.done none st.pending r :: es, st3, [⟨v.p, packTxs v.txs⟩] ++ ext,
        ?_, ?_, ?_, a4, ?_, ?_, ?_, ?_⟩
      · simp only [List.length_cons]; omega
      · simp only [undisturbed, quiet, hstep, Bool.true_and]
        exact a2
      · simp only [run, hstep]
        exact a3
      · rw [a5, hsent, List.append_assoc]
      · rw [sentTo_append, hone, List.flatten_append, a6, hback, ← hvb]
        simpa using hsplit
      · rw [sentTo_append, hone, List.length_append, a7]
        simp only [List.length_cons, List.length_nil]
        omega
      · intro pk hpk
        rw [sentTo_append, hone, List.mem_append] at hpk
        rcases hpk with h1 | h1
        · simp only [List.mem_singleton] at h1
          rw [h1]; exact hpne
        · exact a8 pk h1

/-- C8: a non-empty backlog registered for a peer is delivered to it whole and in
order, provided no registration for that peer arrives and no send to it fails.
At every point of such a run: every pack sent to the peer since the registration
is non-empty; those packs, in send order and followed by what is still queued
for the peer, are the registered backlog; the peer has no entry in pending
exactly when the packs sent make up the whole backlog; the number of packs is at
most the length of the backlog. Progress: while the peer has an entry a send is
in flight, and each time the loop takes a send result and picks the peer it
sends a non-empty pack from the front of the peer's queue, which shortens the
queue, and deletes the entry exactly when the pack takes the last transaction.
Completion: unless the loop has quit, within at most `len(queue)` further sends
to the peer its entry is deleted and the packs sent to it since the registration
are then, concatenated in send order, the registered backlog. -/
theorem drain_in_order (st0 : LoopState) (h0 : Reachable st0) (s : txsync) (hs : s.txs ≠ [])
    (st1 : LoopState) (hreg : step st0 (Event.txsync s) = some st1)
    (es : List Event) (st2 : LoopState) (hrun : run st1 es = some st2)
    (hq : undisturbed s.p.ID st1 es = true) :
    ∃ ext, st2.sent = st0.sent ++ ext ∧
      (∀ pk ∈ sentTo s.p.ID ext, pk ≠ []) ∧
      (sentTo s.p.ID ext).flatten ++ backlogOf st2.pending s.p.ID = s.txs ∧
      (mapGet st2.pending s.p.ID = none ↔ (sentTo s.p.ID ext).flatten = s.txs) ∧
      (sentTo s.p.ID ext).length ≤ s.txs.length ∧
      (mapGet st2.pending s.p.ID ≠ none → st2.sending = true ∧ st2.inflight = 1) ∧
      (∀ err order r mid v, st2.stopped = false → completeSend st2 err = some mid →
        validChoice mid.pending order r = true →
        pick mid.pending order r = PickResult.found (s.p.ID, v) →
        ∃ st3, step st2 (Event.done err order r) = some st3 ∧
          st3.sent = st2.sent ++ [⟨v.p, packTxs v.txs⟩] ∧
          v.p.ID = s.p.ID ∧
          packTxs v.txs ≠ [] ∧
          v.txs = backlogOf st2.pending s.p.ID ∧
          packTxs v.txs ++ backlogOf st3.pending s.p.ID = backlogOf st2.pending s.p.ID ∧
          (backlogOf st3.pending s.p.ID).length < (backlogOf st2.pending s.p.ID).length ∧
          (mapGet st3.pending s.p.ID = none ↔ packTxs v.txs = v.txs)) ∧
      (st2.stopped = false →
        ∃ es2 st3 ext2, es2.length ≤ (backlogOf st2.pending s.p.ID).length ∧
          undisturbed s.p.ID st2 es2 = true ∧
          run st1 (es ++ es2) = some st3 ∧
          mapGet st3.pending s.p.ID = none ∧
          st3.sent = st0.sent ++ (ext ++ ext2) ∧
          (sentTo s.p.ID (ext ++ ext2)).flatten = s.txs ∧
          (sentTo s.p.ID ext2).length = es2.length ∧
          (∀ pk ∈ sentTo s.p.ID (ext ++ ext2), pk ≠ []) ∧
          (sentTo s.p.ID (ext ++ ext2)).length ≤ s.txs.length) := by
  obtain ⟨ext, a1, a2, a3, a4, a5⟩ := drain_safety st0 h0 s hs st1 hreg es st2 hrun hq
  have hinv0 := reachable_inv st0 h0
  have hinv1 := step_inv st0 st1 _ hinv0 hreg
  have hinv2 : Inv st2 := run_inv es st1 st2 hinv1 hrun
  have hidle0 : st0.sending = false → st0.pending = [] := by
    obtain ⟨es0, hes0⟩ := h0
    exact run_idle es0 LoopState.init st0 init_inv (fun _ => rfl) hes0
  have hidle2 : st2.sending = false → st2.pending = [] :=
    run_idle es st1 st2 hinv1 (step_idle st0 st1 _ hinv0 hidle0 hreg) hrun
  have hne2 : ∀ w, mapGet st2.pending s.p.ID = some w → w.txs ≠ [] := by
    intro w hw hnil
    have hb : backlogOf st2.pending s.p.ID = [] := by simp [backlogOf, hw, hnil]
    rw [hb, List.append_nil] at a3
    have := a4.2 a3
    rw [hw] at this
    cases this
  have hflight : mapGet st2.pending s.p.ID ≠ none → st2.sending = true ∧ st2.inflight = 1 := by
    intro hsome
    have hsnd : st2.sending = true := by
      by_contra hc
      simp only [Bool.not_eq_true] at hc
      apply hsome
      rw [hidle2 hc]
      rfl
    exact ⟨hsnd, by rw [hinv2.flight, hsnd]; rfl⟩
  refine ⟨ext, a1, a2, a3, a4, a5, hflight, ?_, ?_⟩
  · intro err order r mid v hstop hcs hv hpick
    -- the entry picked is held by `st2`, so a send is in flight
    obtain ⟨hperm, _⟩ := validChoice_spec _ _ _ hv
    have hmem : (s.p.ID, v) ∈ mid.pending := pick_found_mem _ _ _ _ hperm hpick
    have hmem2 : (s.p.ID, v) ∈ st2.pending := by
      unfold completeSend at hcs
      cases err with
      | none =>
        simp only at hcs
        cases hcs
        exact hmem
      | some msg =>
        simp only at hcs
        cases hp : st2.pack with
        | none => rw [hp] at hcs; cases hcs
        | some pk =>
          rw [hp] at hcs
          simp only at hcs
          cases hcs
          exact ((mem_mapDelete _ _ _).1 hmem).1
    have hg2 : mapGet st2.pending s.p.ID ≠ none := by
      rw [mapGet_of_mem _ hinv2.nodup (s.p.ID, v) hmem2]
      simp
    have hfl : st2.inflight ≠ 0 := by rw [(hflight hg2).2]; omega
    obtain ⟨b1, b2, b3, b4, b5, b6, b7, b8, b9, _⟩ :=
      serve_step s.p.ID st2 mid err order r v hinv2 hstop hfl hne2 hcs hv hpick
    exact ⟨send mid s.p.ID v, b1, b2, b3, b4, b5, by rw [b6, ← b5]; exact b7, b8, b9⟩
  · intro hstop
    by_cases hg : mapGet st2.pending s.p.ID = none
    · have hb : backlogOf st2.pending s.p.ID = [] := by simp [backlogOf, hg]
      refine ⟨[], st2, [], by simp, rfl, by rw [List.append_nil]; exact hrun, hg,
        by rw [List.append_nil]; exact a1, by rw [List.append_nil]; exact a4.1 hg,
        by simp [sentTo], by rw [List.append_nil]; exact a2, by rw [List.append_nil]; exact a5⟩
    · have hfl : st2.inflight ≠ 0 := by rw [(hflight hg).2]; omega
      obtain ⟨es2, st3, ext2, c1, c2, c3, c4, c5, c6, c7, c8⟩ :=
        drain_completes s.p.ID (backlogOf st2.pending s.p.ID).length st2 hinv2 hstop hfl hne2
          (Nat.le_refl _)
      have hall : ∀ pk ∈ sentTo s.p.ID (ext ++ ext2), pk ≠ [] := by
        intro pk hpk
        rw [sentTo_append, List.mem_append] at hpk
        rcases hpk with h1 | h1
        · exact a2 pk h1
        · exact c8 pk h1
      have hflat : (sentTo s.p.ID (ext ++ ext2)).flatten = s.txs := by
        rw [sentTo_append, List.flatten_append, c6]
        exact a3
      refine ⟨es2, st3, ext2, c1, c2, ?_, c4, ?_, hflat, c7, hall, ?_⟩
      · rw [run_append es st1 st2 es2 hrun]; exact c3
      · rw [c5, a1, List.append_assoc]
      · have h1 := length_le_length_flatten _ hall
        rw [hflat] at h1
        exact h1

end Eth

namespace Eth

/-- Concrete case of C8: peer A registers the three-transaction backlog with the
idle loop, which sends the first pack at once; from there the loop can go on
until A's entry is deleted, and the packs sent to A are then the backlog. -/
theorem drain_in_order_witness :
    ∃ es2 st3 sentAll,
      run (onTxsync LoopState.init ⟨peerA, backlog3⟩) ([] ++ es2) = some st3 ∧
      mapGet st3.pending peerA.ID = none ∧
      st3.sent = LoopState.init.sent ++ sentAll ∧
      (sentTo peerA.ID sentAll).flatten = backlog3 ∧
      (sentTo peerA.ID sentAll).length ≤ backlog3.length := by
  obtain ⟨ext, h⟩ := drain_in_order LoopState.init ⟨[], rfl⟩ ⟨peerA, backlog3⟩ (by decide)
    (onTxsync LoopState.init ⟨peerA, backlog3⟩) rfl []
    (onTxsync LoopState.init ⟨peerA, backlog3⟩) rfl rfl
  obtain ⟨es2, st3, ext2, g⟩ := h.2.2.2.2.2.2.2 rfl
  exact ⟨es2, st3, ext ++ ext2, g.2.2.1, g.2.2.2.1, g.2.2.2.2.1, g.2.2.2.2.2.1,
    g.2.2.2.2.2.2.2.2⟩

end Eth

/-! ## The leaf callback of the state sync -/

namespace State

/-- C11: the leaf callback installed by `NewStateSync`. When the leaf decodes as
an account record it makes exactly two requests to the trie sync, in this
order: `AddSubTrie` for the record's storage root with depth 64 and the given
parent, then `AddRawEntry` for `BytesToHash(CodeHash)` with depth 64 and the
given parent, and it returns no error; when the leaf does not decode it returns
the decode error and makes no request. -/
theorem callback_requests (Decode : List Nat → Except String Account)
    (BytesToHash : List Nat → Eth.Hash) (leaf : List Nat) (parent : Eth.Hash) :
    (∀ obj, Decode leaf = Except.ok obj →
      callback Decode BytesToHash leaf parent =
        ([Request.AddSubTrie obj.Root 64 parent,
          Request.AddRawEntry (BytesToHash obj.CodeHash) 64 parent], none) ∧
      (callback Decode BytesToHash leaf parent).1.length = 2) ∧
    (∀ err, Decode leaf = Except.error err →
      callback Decode BytesToHash leaf parent = ([], some err)) := by
  refine ⟨fun obj h => ?_, fun err h => ?_⟩
  · simp [callback, h]
  · simp [callback, h]

/-- Concrete case of C11: a decoder that accepts the one-byte leaf `[1]` as the
account with storage root 7 and code hash bytes `[9]`. -/
theorem callback_requests_witness :
    callback (fun l => if l = [1] then Except.ok ⟨0, 0, 7, [9]⟩ else Except.error "rlp")
        (fun b => b.sum) [1] 3 =
      ([Request.AddSubTrie 7 64 3, Request.AddRawEntry 9 64 3], none) :=
  ((callback_requests
      (fun l => if l = [1] then Except.ok ⟨0, 0, 7, [9]⟩ else Except.error "rlp")
      (fun b => b.sum) [1] 3).1 ⟨0, 0, 7, [9]⟩ rfl).1

end State

/-! ## Registration over an existing entry -/

namespace Eth

/-- C12: a registration for peer P that arrives while pending already holds an
entry for P replaces that entry: line 107 makes the new registration P's entry,
with none of the old transactions, and leaves every other key alone. If a send
is in flight the iteration ends there and starts no send; if none is in flight
the same iteration starts a send whose pack is taken from the new backlog, and
pack and what stays queued for P are together the new backlog. -/
theorem reregister_replaces (st : LoopState) (s old : txsync) (hstop : st.stopped = false)
    (_hold : mapGet st.pending s.p.ID = some old) :
    mapGet (register st s).pending s.p.ID = some s ∧
    (∀ j, j ≠ s.p.ID → mapGet (register st s).pending j = mapGet st.pending j) ∧
    (st.sending = true →
      ∃ st1, step st (Event.txsync s) = some st1 ∧
        mapGet st1.pending s.p.ID = some s ∧
        (∀ j, j ≠ s.p.ID → mapGet st1.pending j = mapGet st.pending j) ∧
        st1.sent = st.sent ∧ st1.inflight = st.inflight ∧ st1.pack = st.pack) ∧
    (st.sending = false →
      ∃ st1, step st (Event.txsync s) = some st1 ∧
        st1.sent = st.sent ++ [⟨s.p, packTxs s.txs⟩] ∧
        st1.pack = some ⟨s.p, packTxs s.txs⟩ ∧
        st1.sending = true ∧
        packTxs s.txs ++ backlogOf st1.pending s.p.ID = s.txs ∧
        (∀ j, j ≠ s.p.ID → mapGet st1.pending j = mapGet st.pending j)) := by
  obtain ⟨hg1, hg2⟩ := register_get st s
  refine ⟨hg1, hg2, fun hsnd => ?_, fun hsnd => ?_⟩
  · refine ⟨register st s, ?_, hg1, hg2, rfl, rfl, rfl⟩
    simp [step, hstop, onTxsync_of_sending st s hsnd]
  · refine ⟨send (register st s) s.p.ID s, ?_, rfl, rfl, rfl, ?_, fun j hj => ?_⟩
    · simp [step, hstop, onTxsync_of_idle st s hsnd]
    · have hself := send_get_self (register st s) s.p.ID s rfl hg1
      simp only [backlogOf, hself]
      split_ifs with h0
      · have : remaining s.txs = [] := List.length_eq_zero.1 h0
        rw [← this]; exact packTxs_append_remaining _
      · exact packTxs_append_remaining _
    · rw [send_get_ne (register st s) s.p.ID j s rfl hj]
      exact hg2 j hj

/-- Concrete case of C12: peer A registers again while its first pack is in
flight and one transaction is still queued for it. -/
theorem reregister_replaces_witness :
    mapGet (register (onTxsync LoopState.init ⟨peerA, backlog3⟩)
      ⟨peerA, backlog3⟩).pending peerA.ID = some ⟨peerA, backlog3⟩ :=
  (reregister_replaces (onTxsync LoopState.init ⟨peerA, backlog3⟩) ⟨peerA, backlog3⟩
    ⟨peerA, [⟨3, 1 * 1024⟩]⟩ rfl (by decide)).1

end Eth

/-! ## New-peer events in `syncer` -/

namespace Eth

/-- While `syncer` has not returned its timer is waiting or has expired. -/
theorem syncerRun_timer (es : List SyncerEvent) :
    ∀ st st1 : SyncerState, (st.returned = false → st.batchTimer ≠ Timer.stopped) →
      syncerRun st es = some st1 → st1.returned = false →
      st1.batchTimer ≠ Timer.stopped := by
  induction es with
  | nil =>
    intro st st1 h hrun hret
    simp only [syncerRun] at hrun
    cases hrun
    exact h hret
  | cons e es ih =>
    intro st st1 h hrun hret
    simp only [syncerRun] at hrun
    cases hs : syncerStep st e with
    | none => rw [hs] at hrun; cases hrun
    | some st2 =>
      rw [hs] at hrun
      refine ih st2 st1 ?_ hrun hret
      intro hret2
      cases e with
      | noMorePeers =>
        simp only [syncerStep] at hs
        split_ifs at hs
        cases hs
        cases hret2
      | newPeer peers =>
        simp only [syncerStep] at hs
        split_ifs at hs with h1 h2 h3
        · cases hs
          exact h (by simpa using h1)
        · cases hs
          simp
        · cases hs
          simp
      | timerC => simp [syncerStep] at hs
      | timerExpires =>
        simp only [syncerStep] at hs
        split_ifs at hs
        cases hs
        simp

/-- C13: new-peer events in `syncer`. With fewer than `minDesiredPeerCount = 5`
peers the event changes nothing: no `sync` is launched and the batch timer is
neither stopped nor made anew. With at least 5 peers the timer is stopped, the
event launches `sync` (a `synchronise` against the best peer) exactly when the
timer was still waiting, that is, had not yet expired, and a fresh 10-second
timer is then made. -/
theorem syncer_newPeer (st : SyncerState) (peers : PeerSet) (hrun : st.returned = false) :
    minDesiredPeerCount = 5 ∧
    (∀ pm, sync pm peers = synchronise pm peers.BestPeer) ∧
    (peers.Len < 5 → syncerStep st (SyncerEvent.newPeer peers) = some st) ∧
    (5 ≤ peers.Len →
      ∃ st1, syncerStep st (SyncerEvent.newPeer peers) = some st1 ∧
        st1.returned = false ∧
        st1.batchTimer = Timer.armed ∧
        (st.batchTimer = Timer.armed →
          st1.effects = st.effects ++ [SyncerEffect.timerStop true, SyncerEffect.goSync,
            SyncerEffect.afterFunc 10]) ∧
        (st.batchTimer ≠ Timer.armed →
          st1.effects = st.effects ++ [SyncerEffect.timerStop false,
            SyncerEffect.afterFunc 10]) ∧
        (SyncerEffect.goSync ∈ st1.effects.drop st.effects.length ↔
          st.batchTimer = Timer.armed) ∧
        ((∃ es, syncerRun SyncerState.init es = some st) →
          (st.batchTimer = Timer.armed ↔ st.batchTimer ≠ Timer.fired))) := by
  refine ⟨rfl, fun _ => rfl, fun hlt => ?_, fun hge => ?_⟩
  · have : peers.Len < minDesiredPeerCount := hlt
    simp [syncerStep, hrun, this]
  · have hn : ¬ peers.Len < minDesiredPeerCount := by
      have : minDesiredPeerCount = 5 := rfl
      omega
    cases ht : st.batchTimer with
    | armed =>
      refine ⟨⟨Timer.armed, st.effects ++ [SyncerEffect.timerStop true, SyncerEffect.goSync,
        SyncerEffect.afterFunc 10], false⟩, ?_, rfl, rfl, fun _ => rfl, fun h => absurd rfl h,
        ?_, fun _ => by simp⟩
      · simp [syncerStep, hrun, hn, ht, Timer.Stop]
      · simp
    | fired =>
      refine ⟨⟨Timer.armed, st.effects ++ [SyncerEffect.timerStop false,
        SyncerEffect.afterFunc 10], false⟩, ?_, rfl, rfl, (fun h => by cases h), fun _ => rfl,
        ?_, fun _ => by simp⟩
      · simp [syncerStep, hrun, hn, ht, Timer.Stop]
      · simp
    | stopped =>
      refine ⟨⟨Timer.armed, st.effects ++ [SyncerEffect.timerStop false,
        SyncerEffect.afterFunc 10], false⟩, ?_, rfl, rfl, (fun h => by cases h), fun _ => rfl,
        ?_, fun hreach => ?_⟩
      · simp [syncerStep, hrun, hn, ht, Timer.Stop]
      · simp
      · obtain ⟨es, hes⟩ := hreach
        exact absurd ht
          (syncerRun_timer es SyncerState.init st (fun _ => by simp [SyncerState.init]) hes hrun)

/-- Concrete case of C13: on entry the timer is waiting; a new-peer event with
four peers changes nothing. -/
theorem syncer_newPeer_witness :
    syncerStep SyncerState.init (SyncerEvent.newPeer ⟨4, none⟩) = some SyncerState.init :=
  (syncer_newPeer SyncerState.init ⟨4, none⟩ rfl).2.2.1 (by decide)

end Eth

/-! ## Backlogs in the pending map are never empty -/

namespace Eth

/-- A `send` from a non-empty entry stored under its own peer keeps every entry
non-empty and adds a non-empty pack. -/
theorem send_nonempty (st : LoopState) (k : NodeID) (s : txsync) (hs : s.p.ID = k)
    (hne : s.txs ≠ []) (hall : ∀ e ∈ st.pending, e.2.txs ≠ [])
    (hsent : ∀ pk ∈ st.sent, pk.txs ≠ []) :
    (∀ e ∈ (send st k s).pending, e.2.txs ≠ []) ∧
    (∀ pk ∈ (send st k s).sent, pk.txs ≠ []) := by
  constructor
  · intro e he
    rw [send_pending] at he
    split_ifs at he with h0
    · obtain ⟨hm, hk⟩ := (mem_mapDelete _ _ _).1 he
      rcases mem_mapMutate _ _ _ _ hm with h1 | h1
      · exact hall e h1
      · exfalso; apply hk; rw [h1, hs]
    · rcases mem_mapMutate _ _ _ _ he with h1 | h1
      · exact hall e h1
      · rw [h1]
        intro hnil
        have hrem : remaining s.txs = [] := hnil
        exact h0 (by rw [hrem]; rfl)
  · intro pk hpk
    rw [(send_fields st k s).2.2.2.1, List.mem_append, List.mem_singleton] at hpk
    rcases hpk with h1 | h1
    · exact hsent pk h1
    · rw [h1]; exact packTxs_ne_nil _ hne

/-- One iteration keeps entries and packs non-empty when the registration it
takes, if any, is non-empty. -/
theorem step_nonempty (st st1 : LoopState) (e : Event) (h : Inv st)
    (hall : ∀ x ∈ st.pending, x.2.txs ≠ []) (hsent : ∀ pk ∈ st.sent, pk.txs ≠ [])
    (hreg : ∀ s, e = Event.txsync s → s.txs ≠ []) (hstep : step st e = some st1) :
    (∀ x ∈ st1.pending, x.2.txs ≠ []) ∧ (∀ pk ∈ st1.sent, pk.txs ≠ []) := by
  cases e with
  | txsync s =>
    simp only [step] at hstep
    split_ifs at hstep
    cases hstep
    have hs := hreg s rfl
    have hall1 : ∀ x ∈ (register st s).pending, x.2.txs ≠ [] := by
      intro x hx
      rcases mem_mapSet _ _ _ _ hx with h1 | h1
      · exact hall x h1.1
      · rw [h1]; exact hs
    by_cases hsnd : st.sending = true
    · rw [onTxsync_of_sending st s hsnd]
      exact ⟨hall1, hsent⟩
    · simp only [Bool.not_eq_true] at hsnd
      rw [onTxsync_of_idle st s hsnd]
      exact send_nonempty (register st s) s.p.ID s rfl hs hall1 hsent
  | done err order r =>
    simp only [step] at hstep
    split_ifs at hstep with hc
    have hfl : st.inflight ≠ 0 := by
      intro h0; apply hc; simp [h0]
    obtain ⟨pk, st2, _, hcs, hpend, _, _, hsent2, _, _⟩ := completeSend_spec st err h hfl
    rw [hcs] at hstep
    simp only at hstep
    split_ifs at hstep with hv
    cases hstep
    have hmem2 : ∀ x ∈ st2.pending, x ∈ st.pending := by
      rw [hpend]; split_ifs
      · exact fun x hx => hx
      · exact fun x hx => ((mem_mapDelete _ _ _).1 hx).1
    have hall2 : ∀ x ∈ st2.pending, x.2.txs ≠ [] := fun x hx => hall x (hmem2 x hx)
    rcases schedule_spec st2 order r hv with ⟨_, hsch⟩ | ⟨e0, he0, hsch⟩
    · rw [hsch, hsent2]; exact ⟨hall2, hsent⟩
    · rw [hsch]
      exact send_nonempty st2 e0.1 e0.2 (h.keyed e0 (hmem2 e0 he0)) (hall2 e0 he0) hall2
        (by rw [hsent2]; exact hsent)
  | quit =>
    simp only [step] at hstep
    split_ifs at hstep
    cases hstep
    exact ⟨hall, hsent⟩

theorem run_nonempty (es : List Event) :
    ∀ st st1 : LoopState, Inv st → (∀ x ∈ st.pending, x.2.txs ≠ []) →
      (∀ pk ∈ st.sent, pk.txs ≠ []) → registersNonEmpty es → run st es = some st1 →
      (∀ x ∈ st1.pending, x.2.txs ≠ []) ∧ (∀ pk ∈ st1.sent, pk.txs ≠ []) := by
  induction es with
  | nil =>
    intro st st1 _ hall hsent _ hrun
    simp only [run] at hrun
    cases hrun
    exact ⟨hall, hsent⟩
  | cons e es ih =>
    intro st st1 hinv hall hsent hreg hrun
    simp only [run] at hrun
    cases hs : step st e with
    | none => rw [hs] at hrun; cases hrun
    | some st2 =>
      rw [hs] at hrun
      obtain ⟨h1, h2⟩ := step_nonempty st st2 e hinv hall hsent
        (fun s he => hreg s (by rw [he]; exact List.mem_cons_self _ _)) hs
      exact ih st2 st1 (step_inv st st2 e hinv hs) h1 h2
        (fun s hs2 => hreg s (List.mem_cons_of_mem _ hs2)) hrun

/-- C17: when every registration carries at least one transaction, which is all
`syncTransactions` ever writes to `txsyncCh`, then after every iteration of the
loop every entry of the pending map has a non-empty backlog; so whenever the
loop calls `pick` the entry returned has a non-empty backlog, and every pack
handed to `SendTransactions` holds at least one transaction. -/
theorem nonempty_backlogs (es : List Event) (st : LoopState) (hreg : registersNonEmpty es)
    (hrun : run LoopState.init es = some st) :
    (∀ x ∈ st.pending, x.2.txs ≠ []) ∧
    (∀ pk ∈ st.sent, pk.txs ≠ []) ∧
    (∀ err order r mid, completeSend st err = some mid → st.inflight ≠ 0 →
      validChoice mid.pending order r = true →
      ∀ s, (pick mid.pending order r).value = some s → s.txs ≠ []) ∧
    (∀ p pool quit s, syncTransactions p pool quit = some s →
      s.txs ≠ [] ∧ s.txs = pool ∧ s.p = p) := by
  have hinv : Inv st := run_inv es _ _ init_inv hrun
  obtain ⟨hall, hsent⟩ := run_nonempty es LoopState.init st init_inv
    (by simp [LoopState.init]) (by simp [LoopState.init]) hreg hrun
  refine ⟨hall, hsent, ?_, ?_⟩
  · intro err order r mid hcs hfl hv s hpick
    obtain ⟨_, st2, _, hcs2, hpend, _⟩ := completeSend_spec st err hinv hfl
    rw [hcs] at hcs2
    cases hcs2
    obtain ⟨hperm, hr⟩ := validChoice_spec _ _ _ hv
    have hmem2 : ∀ x ∈ mid.pending, x ∈ st.pending := by
      rw [hpend]; split_ifs
      · exact fun x hx => hx
      · exact fun x hx => ((mem_mapDelete _ _ _).1 hx).1
    by_cases hnil : mid.pending = []
    · simp [pick, hnil, PickResult.value] at hpick
    · have hpos : 0 < mid.pending.length := List.length_pos.2 hnil
      obtain ⟨e0, _, hp, hmem⟩ := pick_found mid.pending order hperm r (by omega)
      rw [hp] at hpick
      simp only [PickResult.value, Option.some.injEq] at hpick
      rw [← hpick]
      exact hall e0 (hmem2 e0 hmem)
  · intro p pool quit s hs
    unfold syncTransactions at hs
    split_ifs at hs with h0 hq
    cases hs
    refine ⟨fun hnil => h0 ?_, rfl, rfl⟩
    have hp : pool = [] := hnil
    rw [hp]; rfl

/-- Concrete case of C17: after peer A registers the three-transaction backlog
with the idle loop, the entry left for A and the pack sent are non-empty. -/
theorem nonempty_backlogs_witness :
    (∀ x ∈ (onTxsync LoopState.init ⟨peerA, backlog3⟩).pending, x.2.txs ≠ []) ∧
    (∀ pk ∈ (onTxsync LoopState.init ⟨peerA, backlog3⟩).sent, pk.txs ≠ []) :=
  ⟨(nonempty_backlogs [Event.txsync ⟨peerA, backlog3⟩]
      (onTxsync LoopState.init ⟨peerA, backlog3⟩)
      (fun s hs => by
        simp only [List.mem_singleton, Event.txsync.injEq] at hs
        rw [hs]; decide) rfl).1,
   (nonempty_backlogs [Event.txsync ⟨peerA, backlog3⟩]
      (onTxsync LoopState.init ⟨peerA, backlog3⟩)
      (fun s hs => by
        simp only [List.mem_singleton, Event.txsync.injEq] at hs
        rw [hs]; decide) rfl).2.1⟩

end Eth

/-! # Properties of the big integer helpers -/

namespace Common

/-- The hexadecimal string of 64 digits `f` is `2^256 - 1`. -/
theorem MaxBig_eq : MaxBig = some (2 ^ 256 - 1) := by
  simp [MaxBig, SetString16, readHex, hexDigit]

/-- C20, as the code has it: every constant holds the value its name states
except `Big256`, which holds 255 (`0xff`), not 256; `MaxBig` is `2^256 - 1`. -/
theorem constants_values :
    Big0 = 0 ∧ Big1 = 1 ∧ Big2 = 2 ∧ Big3 = 3 ∧ Big32 = 32 ∧ Big36 = 36 ∧ Big97 = 97 ∧
    Big98 = 98 ∧ Big257 = 257 ∧ BigTrue = 1 ∧ BigFalse = 0 ∧
    MaxBig = some (2 ^ 256 - 1) ∧
    Big256 = 255 ∧ Big256 ≠ 256 := by
  exact ⟨rfl, rfl, rfl, rfl, rfl, rfl, rfl, rfl, rfl, rfl, rfl, MaxBig_eq, rfl, by decide⟩

theorem tt256_eq : tt256 = 2 ^ 256 := by
  simp [tt256, Lsh]

theorem tt255_eq : tt255 = 2 ^ 255 := by
  simp [tt255, Lsh]

theorem tt256m1_eq : tt256m1 = ((2 ^ 256 - 1 : Nat) : Int) := by
  simp [tt256m1, Lsh]

/-- Bitwise AND with `2^n - 1` in two's complement is the remainder modulo
`2^n`, for negative numbers too. -/
theorem land_two_pow_sub_one (x : Int) (n : Nat) :
    Int.land x ((2 ^ n - 1 : Nat) : Int) = x % 2 ^ n := by
  cases x with
  | ofNat m =>
    show ((m &&& (2 ^ n - 1) : Nat) : Int) = (m : Int) % 2 ^ n
    rw [Nat.and_pow_two_sub_one_eq_mod]
    push_cast
    rfl
  | negSucc m =>
    show ((Nat.ldiff (2 ^ n - 1) m : Nat) : Int) = Int.negSucc m % 2 ^ n
    have hpos : (0 : Int) < 2 ^ n := by positivity
    rw [Int.negSucc_emod m hpos]
    have hlt : m % 2 ^ n < 2 ^ n := Nat.mod_lt _ (by positivity)
    have hbits : Nat.ldiff (2 ^ n - 1) m = 2 ^ n - (m % 2 ^ n + 1) := by
      apply Nat.eq_of_testBit_eq
      intro i
      rw [Nat.testBit_ldiff, Nat.testBit_two_pow_sub_one, Nat.testBit_two_pow_sub_succ hlt,
        Nat.testBit_mod_two_pow]
      by_cases hi : i < n <;> simp [hi]
    rw [hbits]
    have h1 : m % 2 ^ n + 1 ≤ 2 ^ n := hlt
    push_cast [Nat.cast_sub h1]
    ring

/-- Value returned by `U256`. -/
theorem U256_result (x : Int) : (U256 x).result = x % 2 ^ 256 := by
  show Int.land x tt256m1 = x % 2 ^ 256
  rw [tt256m1_eq]
  exact land_two_pow_sub_one x 256

/-- C14: `U256` limits an integer to 256 bits. For every integer `x`, negative
ones included, `U256(x)` is `x mod 2^256`: the one value `r` with
`0 <= r < 2^256` that is congruent to `x` modulo `2^256`; so `U256(x) = x` for
`0 <= x < 2^256`, and `U256` is idempotent. -/
theorem U256_mod (x : Int) :
    (U256 x).result = x % 2 ^ 256 ∧
    0 ≤ (U256 x).result ∧ (U256 x).result < 2 ^ 256 ∧
    (2 : Int) ^ 256 ∣ x - (U256 x).result ∧
    (∀ r : Int, 0 ≤ r → r < 2 ^ 256 → (2 : Int) ^ 256 ∣ x - r → r = (U256 x).result) ∧
    (0 ≤ x → x < 2 ^ 256 → (U256 x).result = x) ∧
    (U256 (U256 x).result).result = (U256 x).result := by
  have hr := U256_result x
  have hpos : (0 : Int) < 2 ^ 256 := by norm_num
  refine ⟨hr, ?_, ?_, ?_, ?_, ?_, ?_⟩
  · rw [hr]; exact Int.emod_nonneg _ (ne_of_gt hpos)
  · rw [hr]; exact Int.emod_lt_of_pos _ hpos
  · rw [hr]; exact Int.dvd_sub_of_emod_eq rfl
  · intro r h0 h1 hd
    rw [hr]
    obtain ⟨k, hk⟩ := hd
    have hx : x = r + 2 ^ 256 * k := by linarith
    rw [hx, Int.add_mul_emod_self_left, Int.emod_eq_of_lt h0 h1]
  · intro h0 h1
    rw [hr, Int.emod_eq_of_lt h0 h1]
  · rw [U256_result, hr, Int.emod_emod]

/-- Concrete case of C14: `U256(-1)` is `2^256 - 1`. -/
theorem U256_mod_witness : (U256 (-1)).result = (-1) % 2 ^ 256 :=
  (U256_mod (-1)).1

/-- C15: `BigPow` is exact exponentiation. For every integer `a` and every
integer `b >= 0`, `BigPow(a, b) = a^b`, and `BigPow(a, 0) = 1` for every `a`,
zero included. -/
theorem BigPow_eq (a b : Int) (hb : 0 ≤ b) :
    BigPow a b = a ^ b.toNat ∧ BigPow a 0 = 1 ∧ BigPow 0 0 = 1 := by
  refine ⟨?_, by simp [BigPow, Exp], by simp [BigPow, Exp]⟩
  unfold BigPow Exp
  by_cases h0 : b ≤ 0
  · have : b = 0 := le_antisymm h0 hb
    subst this
    simp
  · simp [h0]

/-- Concrete case of C15: `BigPow(2, 10) = 2^10`. -/
theorem BigPow_eq_witness : BigPow 2 10 = 2 ^ (10 : Int).toNat :=
  (BigPow_eq 2 10 (by decide)).1

/-- C18: `S256` reads a 256-bit word as a two's-complement signed number and is
undone by `U256`. For `0 <= x < 2^256`: `S256(x) = x` when `x < 2^255` and
`x - 2^256` otherwise, `S256(x)` lies in `[-2^255, 2^255)`, and
`U256(S256(x)) = x`. For `y` in `[-2^255, 2^255)`: `S256(U256(y)) = y`. `S256`
leaves the value of its argument as it was. -/
theorem S256_U256 :
    (∀ x : Int, 0 ≤ x → x < 2 ^ 256 →
      (x < 2 ^ 255 → (S256 x).result = x) ∧
      (2 ^ 255 ≤ x → (S256 x).result = x - 2 ^ 256) ∧
      -(2 ^ 255) ≤ (S256 x).result ∧ (S256 x).result < 2 ^ 255 ∧
      (U256 (S256 x).result).result = x) ∧
    (∀ y : Int, -(2 ^ 255) ≤ y → y < 2 ^ 255 → (S256 (U256 y).result).result = y) ∧
    (∀ x : Int, (S256 x).arg = x) := by
  have hS : ∀ x : Int, (S256 x).result = if x < 2 ^ 255 then x else x - 2 ^ 256 := by
    intro x
    unfold S256
    rw [tt255_eq, tt256_eq]
    have hc : Eth.Cmp x (2 ^ 255) < 0 ↔ x < 2 ^ 255 := by
      unfold Eth.Cmp
      generalize (2 : Int) ^ 255 = T
      split_ifs <;> omega
    by_cases h : x < 2 ^ 255
    · rw [if_pos (hc.2 h), if_pos h]
    · rw [if_neg (fun h2 => h (hc.1 h2)), if_neg h]
  have hm : (2 : Int) ^ 256 = 2 * 2 ^ 255 := by norm_num
  have hT : (0 : Int) < 2 ^ 255 := by positivity
  -- remainders modulo 2^256 of numbers one period away from [0, 2^256)
  have hlow : ∀ z : Int, 0 ≤ z → z < 2 ^ 256 → (z - 2 ^ 256) % 2 ^ 256 = z := by
    intro z h0 h1
    have : z - 2 ^ 256 = z + 2 ^ 256 * (-1) := by ring
    rw [this, Int.add_mul_emod_self_left, Int.emod_eq_of_lt h0 h1]
  have hneg : ∀ z : Int, -(2 ^ 256) ≤ z → z < 0 → z % 2 ^ 256 = z + 2 ^ 256 := by
    intro z h0 h1
    have : z = (z + 2 ^ 256) + 2 ^ 256 * (-1) := by ring
    conv_lhs => rw [this]
    rw [Int.add_mul_emod_self_left, Int.emod_eq_of_lt (by linarith) (by linarith)]
  refine ⟨fun x h0 h1 => ?_, fun y h0 h1 => ?_, fun x => ?_⟩
  · have hs := hS x
    by_cases h : x < 2 ^ 255
    · rw [if_pos h] at hs
      refine ⟨fun _ => hs, fun h2 => absurd h (not_lt.2 h2), ?_, ?_, ?_⟩
      · rw [hs]; linarith
      · rw [hs]; exact h
      · rw [U256_result, hs, Int.emod_eq_of_lt h0 h1]
    · rw [if_neg h] at hs
      have h2 : (2 : Int) ^ 255 ≤ x := not_lt.1 h
      refine ⟨fun h3 => absurd h3 h, fun _ => hs, ?_, ?_, ?_⟩
      · rw [hs]; linarith
      · rw [hs]; linarith
      · rw [U256_result, hs, hlow x h0 h1]
  · rw [hS, U256_result]
    by_cases hy : 0 ≤ y
    · rw [Int.emod_eq_of_lt hy (by linarith), if_pos h1]
    · have hy2 : y < 0 := not_le.1 hy
      rw [hneg y (by linarith) hy2, if_neg (by linarith)]
      ring
  · unfold S256
    split_ifs <;> rfl

/-- Concrete case of C18: the word `2^255` reads as `-2^255`. -/
theorem S256_U256_witness : (S256 (2 ^ 255)).result = 2 ^ 255 - 2 ^ 256 :=
  (S256_U256.1 (2 ^ 255) (by norm_num) (by norm_num)).2.1 (le_refl _)

end Common

namespace Common

theorem fromBigEndian_append_singleton (bs : List Nat) (b : Nat) :
    fromBigEndian (bs ++ [b]) = fromBigEndian bs * 256 + b := by
  simp [fromBigEndian, List.foldl_append]

theorem fromBigEndian_reverse (l : List Nat) :
    fromBigEndian l.reverse = Nat.ofDigits 256 l := by
  induction l with
  | nil => rfl
  | cons a l ih =>
    rw [List.reverse_cons, fromBigEndian_append_singleton, ih, Nat.ofDigits_cons]
    ring

theorem foldl_zeros (k : Nat) :
    (List.replicate k 0).foldl (fun acc b => acc * 256 + b) 0 = 0 := by
  induction k with
  | zero => rfl
  | succ k ih => simpa [List.replicate_succ] using ih

/-- Leading zero bytes do not change the number read. -/
theorem fromBigEndian_pad (k : Nat) (bs : List Nat) :
    fromBigEndian (List.replicate k 0 ++ bs) = fromBigEndian bs := by
  simp only [fromBigEndian, List.foldl_append, foldl_zeros]

/-- The byte slice of a number: it reads back as the absolute value, its
members are bytes, it has no leading zero and it is empty for zero. -/
theorem Bytes_spec (num : Int) :
    fromBigEndian (Bytes num) = num.natAbs ∧
    (∀ x ∈ Bytes num, x < 256) ∧
    (Bytes num).head? ≠ some 0 ∧
    (num = 0 → Bytes num = []) := by
  refine ⟨?_, ?_, ?_, ?_⟩
  · rw [Bytes, fromBigEndian_reverse, Nat.ofDigits_digits]
  · intro x hx
    rw [Bytes, List.mem_reverse] at hx
    exact Nat.digits_lt_base (by norm_num) hx
  · rw [Bytes, List.head?_reverse]
    intro h
    by_cases h0 : num.natAbs = 0
    · rw [h0, Nat.digits_zero] at h
      cases h
    · have hne := Nat.getLast_digit_ne_zero 256 h0
      rw [List.getLast?_eq_getLast _ (Nat.digits_ne_nil_iff_ne_zero.2 h0)] at h
      exact hne (Option.some.inj h)
  · intro h
    subst h
    simp [Bytes]

/-- The byte slice fits in `n` bytes exactly when the absolute value is below
`256^n`. -/
theorem Bytes_length_le_iff (num : Int) (n : Nat) :
    (Bytes num).length ≤ n ↔ num.natAbs < 256 ^ n := by
  rw [Bytes, List.length_reverse]
  by_cases h0 : num.natAbs = 0
  · rw [h0, Nat.digits_zero]
    simp
  · rw [Nat.digits_len 256 _ (by norm_num) h0, Nat.succ_le_iff,
      Nat.lt_pow_iff_log_lt (by norm_num) h0]

/-- C16: `BigToBytes` gives the bytes of the integer at the size given by `base`,
padded with zeros. For every integer `num` and every `base >= 0`, with
`n = base div 8` and `b` the minimal big-endian byte string of `|num|` (empty for
0), the result is `b` when `len(b) > n` and otherwise `n - len(b)` zero bytes
followed by `b`; it has length `max(n, len(b))`, exactly `n` bytes whenever
`|num| < 256^n`, and read as a big-endian unsigned number it is `|num|`. -/
theorem BigToBytes_spec (num base : Int) (hbase : 0 ≤ base) :
    fromBigEndian (Bytes num) = num.natAbs ∧
    (∀ x ∈ Bytes num, x < 256) ∧
    (Bytes num).head? ≠ some 0 ∧
    (num = 0 → Bytes num = []) ∧
    BigToBytes num base =
      some (if (Bytes num).length > (base / 8).toNat then Bytes num
        else List.replicate ((base / 8).toNat - (Bytes num).length) 0 ++ Bytes num) ∧
    (∀ r, BigToBytes num base = some r →
      r.length = max (base / 8).toNat (Bytes num).length ∧
      (num.natAbs < 256 ^ (base / 8).toNat → r.length = (base / 8).toNat) ∧
      fromBigEndian r = num.natAbs) := by
  obtain ⟨hb1, hb2, hb3, hb4⟩ := Bytes_spec num
  have hdiv : Int.tdiv base 8 = base / 8 := Int.tdiv_eq_ediv hbase (by norm_num)
  have hnn : ¬ (base / 8 < 0) := by
    have : 0 ≤ base / 8 := Int.ediv_nonneg hbase (by norm_num)
    omega
  have hval : BigToBytes num base =
      some (if (Bytes num).length > (base / 8).toNat then Bytes num
        else List.replicate ((base / 8).toNat - (Bytes num).length) 0 ++ Bytes num) := by
    unfold BigToBytes
    simp only [hdiv, hnn, if_false, List.length_replicate]
    split_ifs with h
    · rfl
    · rw [List.take_replicate, Nat.min_eq_left (Nat.sub_le _ _)]
  refine ⟨hb1, hb2, hb3, hb4, hval, fun r hr => ?_⟩
  rw [hval] at hr
  have hr2 := Option.some.inj hr
  by_cases h : (Bytes num).length > (base / 8).toNat
  · rw [if_pos h] at hr2
    subst hr2
    refine ⟨by omega, fun hlt => ?_, hb1⟩
    have := (Bytes_length_le_iff num (base / 8).toNat).2 hlt
    omega
  · rw [if_neg h] at hr2
    subst hr2
    refine ⟨?_, fun _ => ?_, ?_⟩
    · rw [List.length_append, List.length_replicate]; omega
    · rw [List.length_append, List.length_replicate]; omega
    · rw [fromBigEndian_pad, hb1]

/-- Concrete case of C16: `BigToBytes(65535, 32)` is `[0, 0, 255, 255]`. -/
theorem BigToBytes_spec_witness :
    BigToBytes 65535 32 =
      some (if (Bytes 65535).length > ((32 : Int) / 8).toNat then Bytes 65535
        else List.replicate (((32 : Int) / 8).toNat - (Bytes 65535).length) 0 ++
          Bytes 65535) :=
  (BigToBytes_spec 65535 32 (by decide)).2.2.2.2.1

end Common

namespace Common

/-- The low `i` bits of an integer in two's complement are all clear exactly
when `2^i` divides it. -/
theorem low_bits_clear_iff (i : Nat) :
    ∀ v : Int, (∀ j, j < i → v.testBit j = false) ↔ (2 : Int) ^ i ∣ v := by
  induction i with
  | zero => intro v; simp
  | succ i ih =>
    intro v
    have hv : v = 2 * v.div2 + (bif v.bodd then 1 else 0) := by
      conv_lhs => rw [← Int.bit_decomp v, Int.bit_val]
    have hbit0 : v.testBit 0 = v.bodd := by
      conv_lhs => rw [← Int.bit_decomp v]
      exact Int.testBit_bit_zero _ _
    have hbitS : ∀ j, v.testBit (j + 1) = v.div2.testBit j := by
      intro j
      conv_lhs => rw [← Int.bit_decomp v]
      exact Int.testBit_bit_succ _ _ _
    constructor
    · intro h
      have h0 : v.bodd = false := by rw [← hbit0]; exact h 0 (Nat.succ_pos _)
      have hrest : ∀ j, j < i → v.div2.testBit j = false := by
        intro j hj
        rw [← hbitS]
        exact h (j + 1) (Nat.succ_lt_succ hj)
      obtain ⟨k, hk⟩ := (ih v.div2).1 hrest
      refine ⟨k, ?_⟩
      rw [hv, h0, hk, pow_succ]
      simp only [cond_false]
      ring
    · intro h j hj
      obtain ⟨k, hk⟩ := h
      have h0 : v.bodd = false := by
        cases hb : v.bodd with
        | false => rfl
        | true =>
          exfalso
          rw [hb] at hv
          simp only [cond_true] at hv
          rw [pow_succ] at hk
          have : (2 : Int) * v.div2 + 1 = 2 * (2 ^ i * k) := by
            rw [← hv, hk]; ring
          omega
      have hdiv : (2 : Int) ^ i ∣ v.div2 := by
        refine ⟨k, ?_⟩
        rw [h0] at hv
        simp only [cond_false, add_zero] at hv
        rw [pow_succ] at hk
        have : (2 : Int) * v.div2 = 2 * (2 ^ i * k) := by
          rw [← hv, hk]; ring
        exact mul_left_cancel₀ (by norm_num) this
      cases j with
      | zero => rw [hbit0, h0]
      | succ j =>
        rw [hbitS]
        exact (ih v.div2).2 hdiv j (Nat.lt_of_succ_lt_succ hj)

/-- What the loop of `FirstBitSet` returns from index `i` when the bits below
`i` are clear: the first set bit below `i + left`, or the bit length when
there is none. -/
theorem firstBitSetFrom_spec (v : Int) :
    ∀ (left i : Nat), (∀ j, j < i → v.testBit j = false) →
      (firstBitSetFrom v left i < i + left ∧
        v.testBit (firstBitSetFrom v left i) = true ∧
        ∀ j, j < firstBitSetFrom v left i → v.testBit j = false) ∨
      (firstBitSetFrom v left i = BitLen v ∧ ∀ j, j < i + left → v.testBit j = false) := by
  intro left
  induction left with
  | zero =>
    intro i h
    right
    exact ⟨rfl, h⟩
  | succ left ih =>
    intro i h
    by_cases hb : v.testBit i = true
    · left
      have hbit : Bit v i > 0 := by simp [Bit, hb]
      simp only [firstBitSetFrom, if_pos hbit]
      exact ⟨by omega, hb, h⟩
    · have hbit : ¬ Bit v i > 0 := by simp [Bit, hb]
      simp only [firstBitSetFrom, if_neg hbit]
      have h2 : ∀ j, j < i + 1 → v.testBit j = false := by
        intro j hj
        rcases Nat.lt_succ_iff_lt_or_eq.1 hj with h3 | h3
        · exact h j h3
        · rw [h3]; simpa using hb
      rcases ih (i + 1) h2 with ⟨a, b, c⟩ | ⟨a, b⟩
      · left; exact ⟨by omega, b, c⟩
      · right; exact ⟨a, by rw [show i + (left + 1) = i + 1 + left by omega]; exact b⟩

/-- A non-zero integer is not divisible by two to the power of its bit length. -/
theorem not_two_pow_BitLen_dvd (v : Int) (hv : v ≠ 0) : ¬ (2 : Int) ^ BitLen v ∣ v := by
  intro h
  have h1 : (2 ^ BitLen v : Nat) ∣ v.natAbs := by
    have := Int.natAbs_dvd_natAbs.2 h
    simpa [Int.natAbs_pow] using this
  have h2 : v.natAbs < 2 ^ BitLen v := Nat.lt_size_self _
  have h3 : 0 < v.natAbs := Int.natAbs_pos.2 hv
  exact absurd (Nat.le_of_dvd h3 h1) (not_le.2 h2)

/-- C19: for every non-zero integer `v`, `FirstBitSet(v)` is the index of the
least significant set bit: bit `FirstBitSet(v)` is set and every bit below it is
clear, it is the largest `i` such that `2^i` divides `v`, and it is below
`BitLen(v)`. For `v = 0` the result is 0, the bit length of 0, which is also
the result for every odd `v`. -/
theorem FirstBitSet_spec :
    (∀ v : Int, v ≠ 0 →
      v.testBit (FirstBitSet v) = true ∧
      (∀ j, j < FirstBitSet v → v.testBit j = false) ∧
      (2 : Int) ^ FirstBitSet v ∣ v ∧
      (∀ i : Nat, (2 : Int) ^ i ∣ v → i ≤ FirstBitSet v) ∧
      FirstBitSet v < BitLen v) ∧
    (FirstBitSet 0 = 0 ∧ BitLen 0 = 0) ∧
    (∀ v : Int, v % 2 = 1 → FirstBitSet v = 0) := by
  refine ⟨fun v hv => ?_, ⟨by simp [FirstBitSet, BitLen, firstBitSetFrom], by simp [BitLen]⟩,
    fun v hodd => ?_⟩
  · have hspec := firstBitSetFrom_spec v (BitLen v) 0 (fun j hj => absurd hj (Nat.not_lt_zero j))
    have hF : firstBitSetFrom v (BitLen v) 0 = FirstBitSet v := rfl
    rw [Nat.zero_add, hF] at hspec
    rcases hspec with ⟨hlt, hset, hclear⟩ | ⟨_, hall⟩
    · have hdvd : (2 : Int) ^ FirstBitSet v ∣ v := (low_bits_clear_iff _ v).1 hclear
      refine ⟨hset, hclear, hdvd, fun i hi => ?_, hlt⟩
      by_contra hgt
      have hle : FirstBitSet v + 1 ≤ i := by omega
      have hd2 : (2 : Int) ^ (FirstBitSet v + 1) ∣ v :=
        dvd_trans (pow_dvd_pow 2 hle) hi
      have := (low_bits_clear_iff _ v).2 hd2 (FirstBitSet v) (Nat.lt_succ_self _)
      rw [hset] at this
      cases this
    · exact absurd ((low_bits_clear_iff _ v).1 hall) (not_two_pow_BitLen_dvd v hv)
  · have hv : v ≠ 0 := by
      intro h; rw [h] at hodd; simp at hodd
    have hspec := firstBitSetFrom_spec v (BitLen v) 0 (fun j hj => absurd hj (Nat.not_lt_zero j))
    have hF : firstBitSetFrom v (BitLen v) 0 = FirstBitSet v := rfl
    rw [Nat.zero_add, hF] at hspec
    rcases hspec with ⟨_, _, hclear⟩ | ⟨_, hall⟩
    · by_contra hne
      have hpos : 0 < FirstBitSet v := Nat.pos_of_ne_zero hne
      have hd : (2 : Int) ^ 1 ∣ v := (low_bits_clear_iff 1 v).1
        (fun j hj => hclear j (by omega))
      rw [pow_one] at hd
      omega
    · exact absurd ((low_bits_clear_iff _ v).1 hall) (not_two_pow_BitLen_dvd v hv)

/-- Concrete case of C19: the lowest set bit of 12 and of -8. -/
theorem FirstBitSet_spec_witness :
    (12 : Int).testBit (FirstBitSet 12) = true ∧ (-8 : Int).testBit (FirstBitSet (-8)) = true :=
  ⟨(FirstBitSet_spec.1 12 (by decide)).1, (FirstBitSet_spec.1 (-8) (by decide)).1⟩

end Common
